import Mathlib

/-!
Verification development for the SortingHat identity-import engine.

The development shallowly embeds:
* `generate_uuid` and `unaccent_string` from `sortinghat/cli/utils.py`
  (including an executable SHA-1), and
* the `IdentitiesImporter.load` / `__load_identities` / `__load_enrollments`
  algorithm from `sortinghat/core/importer/backend.py`.

The registry gateway operations (`api.add_identity`, `find_identity`,
`merge`, `api.add_organization`, `api.enroll`) and the period constants
`MIN_PERIOD_DATE` / `MAX_PERIOD_DATE` are not part of the sources of this
repository slice; they are modelled from the specification, as noted on
each definition.
-/

set_option autoImplicit false
set_option maxRecDepth 100000

/-! ## SHA-1 (executable, over byte lists) -/

/-- Truncate a natural number to 32 bits. -/
def w32 (n : Nat) : Nat := n % 4294967296

/-- Rotate a 32-bit word left by `b` bits. -/
def rotl32 (b n : Nat) : Nat := w32 ((n <<< b) ||| (n >>> (32 - b)))

/-- Big-endian 32-bit word from four bytes. -/
def beWord (a b c d : Nat) : Nat := (a <<< 24) ||| (b <<< 16) ||| (c <<< 8) ||| d

/-- Group a byte list into big-endian 32-bit words (complete groups only). -/
def bytesToWords : List Nat → List Nat
  | a :: b :: c :: d :: rest => beWord a b c d :: bytesToWords rest
  | _ => []

/-- Big-endian 8-byte encoding of a natural number (mod 2^64). -/
def beBytes8 (n : Nat) : List Nat :=
  [(n >>> 56) % 256, (n >>> 48) % 256, (n >>> 40) % 256, (n >>> 32) % 256,
   (n >>> 24) % 256, (n >>> 16) % 256, (n >>> 8) % 256, n % 256]

/-- SHA-1 padding: append `0x80`, zero bytes, and the 64-bit bit length. -/
def sha1Pad (msg : List Nat) : List Nat :=
  let z := (120 - (msg.length + 1) % 64) % 64
  msg ++ [128] ++ List.replicate z 0 ++ beBytes8 (msg.length * 8)

/-- SHA-1 round function, by round index. -/
def sha1F (t b c d : Nat) : Nat :=
  if t < 20 then (b &&& c) ||| ((4294967295 - b) &&& d)
  else if t < 40 then b ^^^ c ^^^ d
  else if t < 60 then (b &&& c) ||| (b &&& d) ||| (c &&& d)
  else b ^^^ c ^^^ d

/-- SHA-1 round constant, by round index. -/
def sha1K (t : Nat) : Nat :=
  if t < 20 then 1518500249
  else if t < 40 then 1859775393
  else if t < 60 then 2400959708
  else 3395469782

/-- Extend a 16-word block with `k` additional schedule words. -/
def sha1Extend (ws : List Nat) : Nat → List Nat
  | 0 => ws
  | k + 1 =>
      let i := ws.length
      sha1Extend
        (ws ++ [rotl32 1 ((ws.getD (i - 3) 0) ^^^ (ws.getD (i - 8) 0) ^^^
                          (ws.getD (i - 14) 0) ^^^ (ws.getD (i - 16) 0))]) k

/-- The 80 SHA-1 rounds over one block schedule. -/
def sha1Rounds : List Nat → Nat → Nat × Nat × Nat × Nat × Nat → Nat × Nat × Nat × Nat × Nat
  | [], _, st => st
  | w :: ws, t, (a, b, c, d, e) =>
      let temp := w32 (rotl32 5 a + sha1F t b c d + e + sha1K t + w)
      sha1Rounds ws (t + 1) (temp, a, rotl32 30 b, c, d)

/-- Process one 16-word block into the running hash state. -/
def sha1Block (ws : List Nat) (h : Nat × Nat × Nat × Nat × Nat) : Nat × Nat × Nat × Nat × Nat :=
  match h with
  | (h0, h1, h2, h3, h4) =>
    match sha1Rounds (sha1Extend ws 64) 0 (h0, h1, h2, h3, h4) with
    | (a, b, c, d, e) => (w32 (h0 + a), w32 (h1 + b), w32 (h2 + c), w32 (h3 + d), w32 (h4 + e))

/-- Process `k` successive 16-word blocks. -/
def sha1Loop : Nat → List Nat → Nat × Nat × Nat × Nat × Nat → Nat × Nat × Nat × Nat × Nat
  | 0, _, h => h
  | k + 1, ws, h => sha1Loop k (ws.drop 16) (sha1Block (ws.take 16) h)

/-- Full SHA-1 state for a byte-list message. -/
def sha1State (msg : List Nat) : Nat × Nat × Nat × Nat × Nat :=
  let ws := bytesToWords (sha1Pad msg)
  sha1Loop (ws.length / 16) ws (1732584193, 4023233417, 2562383102, 271733878, 3285377520)

/-- Lowercase hexadecimal digit for a nibble. -/
def hexDigitChar (n : Nat) : Char :=
  if n < 10 then Char.ofNat (48 + n) else Char.ofNat (87 + n)

/-- Eight lowercase hex characters of a 32-bit word, most significant first. -/
def wordHex (n : Nat) : List Char :=
  [hexDigitChar ((n >>> 28) &&& 15), hexDigitChar ((n >>> 24) &&& 15),
   hexDigitChar ((n >>> 20) &&& 15), hexDigitChar ((n >>> 16) &&& 15),
   hexDigitChar ((n >>> 12) &&& 15), hexDigitChar ((n >>> 8) &&& 15),
   hexDigitChar ((n >>> 4) &&& 15), hexDigitChar (n &&& 15)]

/-- Lowercase hex SHA-1 digest of a byte-list message, as in `hashlib.sha1(...).hexdigest()`. -/
def sha1hexString (msg : List Nat) : String :=
  match sha1State msg with
  | (h0, h1, h2, h3, h4) =>
    String.mk (wordHex h0 ++ wordHex h1 ++ wordHex h2 ++ wordHex h3 ++ wordHex h4)

/-! ## Text pipeline: UTF-8, lower-casing, unaccenting -/

/-- UTF-8 bytes of one character. -/
def utf8Char (c : Char) : List Nat :=
  let n := c.toNat
  if n < 128 then [n]
  else if n < 2048 then [192 + n / 64, 128 + n % 64]
  else if n < 65536 then [224 + n / 4096, 128 + (n / 64) % 64, 128 + n % 64]
  else [240 + n / 262144, 128 + (n / 4096) % 64, 128 + (n / 64) % 64, 128 + n % 64]

/-- UTF-8 bytes of a string, as in Python `str.encode` (over characters
representable as Lean `Char`, where the `surrogateescape` handler never fires). -/
def utf8Encode (s : String) : List Nat := s.data.flatMap utf8Char

/-- Case mapping of one character, modelling Python `str.lower` on the
character set used by this development (ASCII letters; identity elsewhere). -/
def lowerChar (c : Char) : Char :=
  if 65 ≤ c.toNat ∧ c.toNat ≤ 90 then Char.ofNat (c.toNat + 32) else c

/-- Character-wise lower-casing of a string, modelling Python `str.lower`. -/
def lowerString (s : String) : String := String.mk (s.data.map lowerChar)

/-- Canonical (NFD) decomposition of one character, modelling
`unicodedata.normalize` for the accented Latin letters used by this
development; identity elsewhere. -/
def nfdChar (c : Char) : List Char :=
  match c.toNat with
  | 0xF6 => ['o', Char.ofNat 0x308]
  | 0xD6 => ['O', Char.ofNat 0x308]
  | 0xE9 => ['e', Char.ofNat 0x301]
  | 0xEA => ['e', Char.ofNat 0x302]
  | 0xEB => ['e', Char.ofNat 0x308]
  | 0xCA => ['E', Char.ofNat 0x302]
  | 0x108 => ['C', Char.ofNat 0x302]
  | 0x107 => ['c', Char.ofNat 0x301]
  | _ => [c]

/-- Whether a character is a combining mark (Unicode category `Mn`) for the
character set used by this development: the combining diacritical marks block. -/
def isMnChar (c : Char) : Bool := 0x300 ≤ c.toNat && c.toNat ≤ 0x36F

/-- Unaccent a string: NFD-decompose and drop combining marks
(`unaccent_string` in `sortinghat/cli/utils.py`). -/
def unaccent_string (s : String) : String :=
  String.mk ((s.data.flatMap nfdChar).filter (fun c => !(isMnChar c)))

/-! ## generate_uuid (`sortinghat/cli/utils.py`) -/

/-- Python `str(value)` for an optional string: `None` stringifies to `"None"`
(the `to_str` helper inside `generate_uuid`). -/
def to_str : Option String → String
  | none => "None"
  | some s => s

/-- Python truthiness of an optional string: `None` and `""` are falsy. -/
def pyFalsy : Option String → Bool
  | none => true
  | some s => s == ""

/-- The joined, lower-cased preimage string hashed by `generate_uuid`. -/
def uuidPreimage (source email name username : Option String) : String :=
  lowerString (to_str source ++ ":" ++ to_str email ++ ":" ++
               unaccent_string (to_str name) ++ ":" ++ to_str username)

/-- The UUID generator of `sortinghat/cli/utils.py`: validates the input and
returns the SHA-1 hex digest of the canonicalized joined string. -/
def generate_uuid (source email name username : Option String) : Except String String :=
  if source = none then .error "source cannot be None"
  else if source = some "" then .error "source cannot be an empty string"
  else if pyFalsy email && pyFalsy name && pyFalsy username then
    .error "identity data cannot be empty"
  else
    .ok (sha1hexString (utf8Encode (uuidPreimage source email name username)))

/-! ## Spec-described fingerprint (for refinement comparison)

The following definition follows the words of the specification, section 4.2:
"stringify each field (absent → empty string), canonicalize `name` only
(unaccent), join all four with `:` separators, lower-case the entire joined
string, encode as bytes ..., then compute a cryptographic digest (160-bit,
hex-encoded)". It is compared against `generate_uuid`, which is translated
from the source. -/

/-- Stringification as described by the spec: an absent field becomes the
empty string. -/
def spec_to_str : Option String → String
  | none => ""
  | some s => s

/-- Fingerprint computed exactly as the specification describes it
(`none` on the documented failure conditions). -/
def spec_fingerprint (source email name username : Option String) : Option String :=
  if pyFalsy source then none
  else if pyFalsy email && pyFalsy name && pyFalsy username then none
  else
    some (sha1hexString (utf8Encode (lowerString
      (spec_to_str source ++ ":" ++ spec_to_str email ++ ":" ++
       unaccent_string (spec_to_str name) ++ ":" ++ spec_to_str username))))

/-! ## Helper lemmas on the text pipeline -/

theorem string_mk_append (l1 l2 : List Char) :
    String.mk (l1 ++ l2) = String.mk l1 ++ String.mk l2 := rfl

theorem data_mk (l : List Char) : (String.mk l).data = l := rfl

theorem lowerString_append (s t : String) :
    lowerString (s ++ t) = lowerString s ++ lowerString t := by
  cases s with
  | mk l1 =>
    cases t with
    | mk l2 =>
      show lowerString (String.mk (l1 ++ l2)) = _
      simp only [lowerString, data_mk, List.map_append, string_mk_append]

/-! ## Claims C4, C6, C7: the fingerprint function -/

/-- On valid input, `generate_uuid` returns the digest of the canonicalized
joined string (shared helper). -/
theorem generate_uuid_ok (source email name username : Option String)
    (h1 : source ≠ none) (h2 : source ≠ some "")
    (h3 : (pyFalsy email && pyFalsy name && pyFalsy username) = false) :
    generate_uuid source email name username =
      .ok (sha1hexString (utf8Encode (lowerString
        (to_str source ++ ":" ++ to_str email ++ ":" ++
         unaccent_string (to_str name) ++ ":" ++ to_str username)))) := by
  simp [generate_uuid, uuidPreimage, h1, h2, h3]

/-- C4 (counterexample): at a concrete input with an absent email, the
fingerprint computed by the code differs from the one the claim describes
(the code stringifies an absent field as `"None"`, not as the empty string). -/
theorem c4_fingerprint_algorithm_counterexample :
    (generate_uuid (some "scm") none (some "John Smith") (some "jsmith")).toOption ≠
      spec_fingerprint (some "scm") none (some "John Smith") (some "jsmith") := by
  decide

/-- C4 (amended): for every valid input, the fingerprint equals the
hex-encoded SHA-1 digest of the byte string obtained by stringifying each
field with absent fields becoming the string `"None"` (Python `str(None)`),
unaccenting the name only, joining with `:`, lower-casing the whole joined
string, and UTF-8 encoding it. -/
theorem c4_fingerprint_algorithm_amended (source email name username : Option String)
    (h1 : source ≠ none) (h2 : source ≠ some "")
    (h3 : (pyFalsy email && pyFalsy name && pyFalsy username) = false) :
    generate_uuid source email name username =
      .ok (sha1hexString (utf8Encode (lowerString
        (to_str source ++ ":" ++ to_str email ++ ":" ++
         unaccent_string (to_str name) ++ ":" ++ to_str username)))) :=
  generate_uuid_ok source email name username h1 h2 h3

/-- Witness for C4 (amended) at a concrete valid input. -/
theorem c4_fingerprint_algorithm_witness :
    generate_uuid (some "scm") (some "jsmith@example.com") (some "John Smith") (some "jsmith") =
      .ok (sha1hexString (utf8Encode (lowerString
        (to_str (some "scm") ++ ":" ++ to_str (some "jsmith@example.com") ++ ":" ++
         unaccent_string (to_str (some "John Smith")) ++ ":" ++ to_str (some "jsmith"))))) :=
  c4_fingerprint_algorithm_amended _ _ _ _ (by decide) (by decide) (by decide)

/-- C6: the fingerprint function fails exactly when the source is absent or
empty, or when email, name and username are all absent or empty. -/
theorem c6_fingerprint_rejection (source email name username : Option String) :
    (∃ msg, generate_uuid source email name username = .error msg) ↔
      (source = none ∨ source = some "" ∨
       (pyFalsy email = true ∧ pyFalsy name = true ∧ pyFalsy username = true)) := by
  by_cases h1 : source = none
  · simp [generate_uuid, h1]
  · by_cases h2 : source = some ""
    · simp [generate_uuid, h1, h2]
    · cases hpe : pyFalsy email <;> cases hpn : pyFalsy name <;> cases hpu : pyFalsy username <;>
        simp [generate_uuid, h1, h2, hpe, hpn, hpu]

/-- Witness for C6: the two rejection examples named by the claim —
an empty source fails, and a valid source with no identifying data fails. -/
theorem c6_fingerprint_rejection_witness :
    (∃ msg, generate_uuid (some "") (some "jsmith@example.com") none none = .error msg) ∧
    (∃ msg, generate_uuid (some "scm") none none none = .error msg) :=
  ⟨(c6_fingerprint_rejection (some "") (some "jsmith@example.com") none none).mpr
      (by simp),
   (c6_fingerprint_rejection (some "scm") none none none).mpr
      (by simp [pyFalsy])⟩

/-- C7: the fingerprint is invariant under case changes in any field and
accent changes in the name: two valid inputs whose fields agree after
lower-casing (and, for the name, unaccenting then lower-casing) yield the
same fingerprint. -/
theorem c7_fingerprint_case_accent_invariance
    (s1 e1 n1 u1 s2 e2 n2 u2 : Option String)
    (hv1 : s1 ≠ none) (hv1e : s1 ≠ some "")
    (hd1 : (pyFalsy e1 && pyFalsy n1 && pyFalsy u1) = false)
    (hv2 : s2 ≠ none) (hv2e : s2 ≠ some "")
    (hd2 : (pyFalsy e2 && pyFalsy n2 && pyFalsy u2) = false)
    (hsrc : lowerString (to_str s1) = lowerString (to_str s2))
    (hem : lowerString (to_str e1) = lowerString (to_str e2))
    (hnm : lowerString (unaccent_string (to_str n1)) =
           lowerString (unaccent_string (to_str n2)))
    (hun : lowerString (to_str u1) = lowerString (to_str u2)) :
    generate_uuid s1 e1 n1 u1 = generate_uuid s2 e2 n2 u2 := by
  rw [generate_uuid_ok s1 e1 n1 u1 hv1 hv1e hd1,
      generate_uuid_ok s2 e2 n2 u2 hv2 hv2e hd2]
  have : lowerString (to_str s1 ++ ":" ++ to_str e1 ++ ":" ++
           unaccent_string (to_str n1) ++ ":" ++ to_str u1) =
         lowerString (to_str s2 ++ ":" ++ to_str e2 ++ ":" ++
           unaccent_string (to_str n2) ++ ":" ++ to_str u2) := by
    simp only [lowerString_append, hsrc, hem, hnm, hun]
  rw [this]

/-- Witness for C7: the concrete pair of inputs from the specification. -/
theorem c7_fingerprint_case_accent_invariance_witness :
    generate_uuid (some "scm") (some "jsmith@example.com") (some "John Smith") (some "jsmith") =
      generate_uuid (some "scm") (some "JSMITH@EXAMPLE.COM")
        (some "Jöhn Smith") (some "JSMITH") :=
  c7_fingerprint_case_accent_invariance _ _ _ _ _ _ _ _
    (by decide) (by decide) (by decide) (by decide) (by decide) (by decide)
    (by decide) (by decide) (by decide) (by decide)

/-! ## Data model of the import engine -/

/-- A raw identity bundled in a candidate individual
(fields as passed to `api.add_identity` by the importer). -/
structure RawIdentity where
  source : Option String
  email : Option String
  name : Option String
  username : Option String
deriving DecidableEq, Repr

/-- An enrollment claim of a candidate individual: organization name and
period, as read by `__load_enrollments`. -/
structure EnrollmentClaim where
  organization : String
  start : Int
  end_ : Int
deriving DecidableEq, Repr

/-- A candidate individual: the input unit consumed by `load`. -/
structure CandidateIndividual where
  identities : List RawIdentity
  enrollments : List EnrollmentClaim
deriving DecidableEq, Repr

/-- A stored enrollment row (individual uuid, group, clamped period). -/
structure Enrollment where
  uuid : String
  group : String
  from_date : Int
  to_date : Int
deriving DecidableEq, Repr

/-- The state of the identity registry behind the gateway. Modelled from the
spec, section 3 and 6: individuals keyed by canonical id (`mk`) with a lock
flag, stored identities keyed by fingerprint with their owning individual,
organizations, and enrollments. -/
structure Registry where
  individuals : List (String × Bool)
  identities : List (String × String)
  organizations : List String
  enrollments : List Enrollment
deriving DecidableEq, Repr

/-- The empty (fresh) registry. -/
def emptyRegistry : Registry := ⟨[], [], [], []⟩

/-- Modelled from the spec: `MIN_PERIOD_DATE`, the lower bound of the global
valid enrollment range (dates are abstracted as integers; only the ordering
of the two bounds matters to the engine). -/
def MIN_PERIOD_DATE : Int := 1900

/-- Modelled from the spec: `MAX_PERIOD_DATE`, the upper bound of the global
valid enrollment range. -/
def MAX_PERIOD_DATE : Int := 2100

/-! ## Gateway operations (modelled from the spec, section 6) -/

/-- Modelled from the spec: `find-identity-by-fingerprint` — the owning
individual's canonical id of the stored identity with this fingerprint. -/
def find_identity (r : Registry) (eid : String) : Option String :=
  r.identities.lookup eid

/-- The lock flag of the individual at a canonical id (false when absent). -/
def individual_is_locked (r : Registry) (mk : String) : Bool :=
  (r.individuals.lookup mk).getD false

/-- Errors of the gateway identity-creation operation. -/
inductive AddIdentityError where
  | invalidValue (msg : String)
  | alreadyExists (eid : String)
deriving DecidableEq, Repr

/-- Modelled from the spec: `create-identity-or-fail-if-exists`
(`api.add_identity`). Computes the fingerprint with `generate_uuid`; fails
with `invalidValue` on malformed attributes, with `alreadyExists` when the
fingerprint is already stored. Otherwise stores the identity: under the hint
individual when a truthy hint uuid is given, else under a brand-new unlocked
individual whose canonical id is the new identity's fingerprint. Returns the
updated registry and the owning individual's canonical id. -/
def add_identity (r : Registry) (source email name username : Option String)
    (uuid : Option String) : Except AddIdentityError (Registry × String) :=
  match generate_uuid source email name username with
  | .error msg => .error (.invalidValue msg)
  | .ok fp =>
    if (r.identities.lookup fp).isSome then .error (.alreadyExists fp)
    else
      match (if pyFalsy uuid then none else uuid) with
      | none =>
          .ok ({ r with individuals := (fp, false) :: r.individuals,
                        identities := (fp, fp) :: r.identities }, fp)
      | some mk =>
          .ok ({ r with identities := (fp, mk) :: r.identities }, mk)

/-- Modelled from the spec: `mergeIndividuals` — reassigns the ownership of
every identity owned by one of the source canonical ids to the target, and
retires the source individuals. -/
def merge (r : Registry) (from_uuids : List String) (to_uuid : String) : Registry :=
  { r with
    individuals := r.individuals.filter (fun p => !(from_uuids.contains p.1)),
    identities := r.identities.map
      (fun p => if from_uuids.contains p.2 then (p.1, to_uuid) else p) }

/-- Modelled from the spec: `create-or-get-organization`
(`api.add_organization`); fails when the organization already exists. -/
def add_organization (r : Registry) (name : String) : Except Unit Registry :=
  if r.organizations.contains name then .error ()
  else .ok { r with organizations := name :: r.organizations }

/-- Errors of the gateway enrollment operation. -/
inductive EnrollError where
  | alreadyExists
  | invalidValue (msg : String)
  | notFound (msg : String)
deriving DecidableEq, Repr

/-- Modelled from the spec: `enroll` — fails on an invalid period
(start after end), on an unknown group, or on a duplicate enrollment;
otherwise stores the enrollment row. -/
def enroll (r : Registry) (uuid group : String) (from_date to_date : Int) :
    Except EnrollError Registry :=
  if to_date < from_date then .error (.invalidValue "start date greater than end date")
  else if !(r.organizations.contains group) then .error (.notFound "group not found")
  else if r.enrollments.contains ⟨uuid, group, from_date, to_date⟩ then .error .alreadyExists
  else .ok { r with enrollments := ⟨uuid, group, from_date, to_date⟩ :: r.enrollments }

/-! ## The importer (`sortinghat/core/importer/backend.py`) -/

/-- The loop state of `__load_identities`: the registry, the working uuid,
the created-identity count, and an instrumentation trace of the merge calls
issued to the gateway (arguments of `merge(self.ctx, [uuid], stored_uuid)`). -/
structure LoadState where
  reg : Registry
  uuid : Option String
  nidentities : Nat
  merges : List (List String × String)
deriving DecidableEq, Repr

/-- One iteration of the `__load_identities` loop. -/
def load_identity_step (st : LoadState) (identity : RawIdentity) : LoadState :=
  match add_identity st.reg identity.source identity.email identity.name identity.username
        st.uuid with
  | .ok (r1, mk) =>
      { st with reg := r1,
                uuid := if pyFalsy st.uuid then some mk else st.uuid,
                nidentities := st.nidentities + 1 }
  | .error (.invalidValue _) => st
  | .error (.alreadyExists eid) =>
      match find_identity st.reg eid with
      | none => st
      | some stored_uuid =>
          match (if pyFalsy st.uuid then some stored_uuid else st.uuid) with
          | none => st
          | some u =>
              if u = stored_uuid then { st with uuid := some u }
              else if individual_is_locked st.reg stored_uuid then
                { st with uuid := some u }
              else
                { st with reg := merge st.reg [u] stored_uuid,
                          uuid := some stored_uuid,
                          merges := st.merges ++ [([u], stored_uuid)] }

/-- `__load_identities`: fold the loop over a candidate's raw identities,
starting with no working uuid and a zero count. -/
def load_identities (r : Registry) (identities : List RawIdentity) : LoadState :=
  identities.foldl load_identity_step ⟨r, none, 0, []⟩

/-- The `try: api.add_organization ... except AlreadyExistsError: pass` block:
idempotent organization creation. -/
def add_organization_pass (r : Registry) (name : String) : Registry :=
  match add_organization r name with
  | .ok r1 => r1
  | .error _ => r

/-- One iteration of the `__load_enrollments` loop: idempotent organization
creation, clamping of the period to the global range, then the enroll call.
`some msg` signals the `LoadError` raised from `ValueError`/`NotFoundError`. -/
def load_enrollment_step (r : Registry) (uuid : String) (e : EnrollmentClaim) :
    Registry × Option String :=
  let r1 := add_organization_pass r e.organization
  let from_date := max MIN_PERIOD_DATE e.start
  let to_date := min MAX_PERIOD_DATE e.end_
  match enroll r1 uuid e.organization from_date to_date with
  | .ok r2 => (r2, none)
  | .error .alreadyExists => (r1, none)
  | .error (.invalidValue m) => (r1, some m)
  | .error (.notFound m) => (r1, some m)

/-- `__load_enrollments`: apply the claims in order, stopping at the first
`LoadError`. -/
def load_enrollments (r : Registry) (enrollments : List EnrollmentClaim) (uuid : String) :
    Registry × Option String :=
  match enrollments with
  | [] => (r, none)
  | e :: es =>
      match load_enrollment_step r uuid e with
      | (r1, none) => load_enrollments r1 es uuid
      | (r1, some m) => (r1, some m)

/-- The outcome of `load`: the final registry, the returned total (meaningful
only when no error escaped), the escaped `LoadError` if any, and the
accumulated merge-call trace. -/
structure LoadResult where
  reg : Registry
  total : Nat
  error : Option String
  merges : List (List String × String)
deriving DecidableEq, Repr

/-- `IdentitiesImporter.load`: process each candidate individual in order —
identities first, then, under a truthy working uuid, the enrollments; a
`LoadError` raised by the enrollment phase propagates immediately. -/
def load (r : Registry) : List CandidateIndividual → LoadResult
  | [] => ⟨r, 0, none, []⟩
  | c :: rest =>
      let st := load_identities r c.identities
      match (if pyFalsy st.uuid then none else st.uuid) with
      | some u =>
          match load_enrollments st.reg c.enrollments u with
          | (r2, none) =>
              let res := load r2 rest
              ⟨res.reg, st.nidentities + res.total, res.error, st.merges ++ res.merges⟩
          | (r2, some m) => ⟨r2, 0, some m, st.merges⟩
      | none =>
          let res := load st.reg rest
          ⟨res.reg, st.nidentities + res.total, res.error, st.merges ++ res.merges⟩

/-! ## Lookup helper lemmas -/

theorem lookup_filter_key {β : Type} (q : String → Bool) (l : List (String × β)) (k : String) :
    (l.filter (fun p => q p.1)).lookup k = if q k then l.lookup k else none := by
  induction l with
  | nil => simp
  | cons a l ih =>
    obtain ⟨ka, va⟩ := a
    by_cases hk : k = ka
    · subst hk
      by_cases hq : q k <;> simp [List.filter, hq, List.lookup, ih]
    · have hbeq : (k == ka) = false := beq_eq_false_iff_ne.mpr hk
      by_cases hq : q ka <;> simp [List.filter, hq, List.lookup, hbeq, ih]

theorem lookup_map_value {β γ : Type} (g : β → γ) (l : List (String × β)) (k : String) :
    (l.map (fun p => (p.1, g p.2))).lookup k = (l.lookup k).map g := by
  induction l with
  | nil => simp
  | cons a l ih =>
    obtain ⟨ka, va⟩ := a
    by_cases hk : k = ka
    · subst hk; simp [List.lookup, ih]
    · have hbeq : (k == ka) = false := beq_eq_false_iff_ne.mpr hk
      simp [List.lookup, hbeq, ih]

theorem lookup_mem {β : Type} {l : List (String × β)} {k : String} {v : β}
    (h : l.lookup k = some v) : (k, v) ∈ l := by
  induction l with
  | nil => simp [List.lookup] at h
  | cons a l ih =>
    obtain ⟨ka, va⟩ := a
    by_cases hk : (k == ka) = true
    · simp [List.lookup, hk] at h
      subst h
      have : k = ka := eq_of_beq hk
      subst this
      exact List.mem_cons_self _ _
    · have hbeq : (k == ka) = false := by simp at hk; exact beq_eq_false_iff_ne.mpr hk
      simp [List.lookup, hbeq] at h
      exact List.mem_cons_of_mem _ (ih h)

/-- The identity map of `merge` rewrites each owner through a substitution. -/
theorem merge_identities (r : Registry) (fs : List String) (t : String) :
    (merge r fs t).identities =
      r.identities.map (fun p => (p.1, if fs.contains p.2 then t else p.2)) := by
  show r.identities.map _ = _
  congr 1
  funext p
  cases h : fs.contains p.2 with
  | true => simp
  | false => simp

theorem merge_lookup (r : Registry) (fs : List String) (t : String) (k : String) :
    (merge r fs t).identities.lookup k =
      (r.identities.lookup k).map (fun m => if fs.contains m then t else m) := by
  rw [merge_identities]
  exact lookup_map_value (fun m => if fs.contains m then t else m) r.identities k

/-! ## Claim C1: merge-survivor rule (one reconciliation step) -/

/-- C1: when a working canonical id exists and a raw identity's fingerprint
already belongs to a different, unlocked individual, the step merges the
individual at the working id into the pre-existing one (issuing exactly one
gateway merge call with the working id as source and the pre-existing id as
target), the pre-existing individual survives while the working one is
retired, and the working id becomes the pre-existing individual's canonical
id for the subsequent identities of the candidate. -/
theorem c1_merge_survivor (st : LoadState) (i : RawIdentity) (fp u s : String)
    (hfp : generate_uuid i.source i.email i.name i.username = .ok fp)
    (howner : st.reg.identities.lookup fp = some s)
    (huuid : st.uuid = some u) (hne : u ≠ "") (hdiff : u ≠ s)
    (hlock : individual_is_locked st.reg s = false) :
    load_identity_step st i =
      { st with reg := merge st.reg [u] s,
                uuid := some s,
                merges := st.merges ++ [([u], s)] } ∧
    (merge st.reg [u] s).individuals.lookup u = none ∧
    (merge st.reg [u] s).individuals.lookup s = st.reg.individuals.lookup s := by
  have hfalsy : pyFalsy (some u) = false := by
    simp [pyFalsy, hne]
  refine ⟨?_, ?_, ?_⟩
  · simp only [load_identity_step, add_identity, hfp, howner, Option.isSome_some, if_true,
      find_identity, huuid, hfalsy, Bool.false_eq_true, if_false, hlock, hdiff, if_neg,
      ite_false]
  · show (st.reg.individuals.filter _).lookup u = none
    rw [lookup_filter_key (fun k => !([u].contains k))]
    simp
  · show (st.reg.individuals.filter _).lookup s = _
    rw [lookup_filter_key (fun k => !([u].contains k))]
    simp [Ne.symm hdiff]

/-- Witness registry for C1/C8: two distinct raw identities; fingerprints
precomputed so that literal registries can be written down. -/
def wit_ia : RawIdentity := ⟨some "scm", some "a@example.com", none, none⟩

def wit_ib : RawIdentity := ⟨some "scm", some "b@example.com", none, none⟩

def wit_fpa : String := ((generate_uuid (some "scm") (some "a@example.com") none none).toOption).getD ""

def wit_fpb : String := ((generate_uuid (some "scm") (some "b@example.com") none none).toOption).getD ""

/-- A registry owning `wit_ib`'s fingerprint under the unlocked individual
`"S"`, with a second unlocked individual `"U"`. -/
def wit_reg : Registry := ⟨[("U", false), ("S", false)], [(wit_fpb, "S")], [], []⟩

/-- Witness for C1 at a concrete state: working id `"U"`, identity `wit_ib`
owned by the pre-existing `"S"`. -/
theorem c1_merge_survivor_witness :
    load_identity_step ⟨wit_reg, some "U", 1, []⟩ wit_ib =
      { reg := merge wit_reg ["U"] "S", uuid := some "S", nidentities := 1,
        merges := [(["U"], "S")] } ∧
    (merge wit_reg ["U"] "S").individuals.lookup "U" = none ∧
    (merge wit_reg ["U"] "S").individuals.lookup "S" = wit_reg.individuals.lookup "S" :=
  c1_merge_survivor ⟨wit_reg, some "U", 1, []⟩ wit_ib wit_fpb "U" "S"
    (by rfl) (by rfl) rfl (by decide) (by decide) (by rfl)

/-! ## Claim C8: lock protection (one reconciliation step) -/

/-- C8: when the fingerprint already belongs to a different individual that
is locked, the step performs no merge and leaves the whole state — registry,
working id, count, and merge trace — unchanged. -/
theorem c8_locked_skip (st : LoadState) (i : RawIdentity) (fp u s : String)
    (hfp : generate_uuid i.source i.email i.name i.username = .ok fp)
    (howner : st.reg.identities.lookup fp = some s)
    (huuid : st.uuid = some u) (hne : u ≠ "") (hdiff : u ≠ s)
    (hlock : individual_is_locked st.reg s = true) :
    load_identity_step st i = st := by
  have hfalsy : pyFalsy (some u) = false := by
    simp [pyFalsy, hne]
  have : load_identity_step st i = { st with uuid := some u } := by
    simp only [load_identity_step, add_identity, hfp, howner, Option.isSome_some, if_true,
      find_identity, huuid, hfalsy, Bool.false_eq_true, if_false, hlock, hdiff, if_neg,
      ite_true]
  rw [this, ← huuid]

/-! ## Case analysis of one reconciliation step -/

/-- Exhaustive description of the behavior of `load_identity_step`:
invalid identity (A), creation under a fresh individual (B1), creation under
the working individual (B2), fingerprint already stored with adoption or
agreement (C), locked-owner skip (D), or merge (E). -/
theorem load_identity_step_cases (st : LoadState) (i : RawIdentity) :
    ((generate_uuid i.source i.email i.name i.username).toOption = none ∧
      load_identity_step st i = st) ∨
    (∃ fp, generate_uuid i.source i.email i.name i.username = .ok fp ∧
      st.reg.identities.lookup fp = none ∧ pyFalsy st.uuid = true ∧
      load_identity_step st i =
        { st with
            reg := { st.reg with individuals := (fp, false) :: st.reg.individuals,
                                 identities := (fp, fp) :: st.reg.identities },
            uuid := some fp, nidentities := st.nidentities + 1 }) ∨
    (∃ fp u, generate_uuid i.source i.email i.name i.username = .ok fp ∧
      st.reg.identities.lookup fp = none ∧ st.uuid = some u ∧ pyFalsy st.uuid = false ∧
      load_identity_step st i =
        { st with
            reg := { st.reg with identities := (fp, u) :: st.reg.identities },
            nidentities := st.nidentities + 1 }) ∨
    (∃ fp s, generate_uuid i.source i.email i.name i.username = .ok fp ∧
      st.reg.identities.lookup fp = some s ∧
      (pyFalsy st.uuid = true ∨ st.uuid = some s) ∧
      load_identity_step st i = { st with uuid := some s }) ∨
    (∃ fp s u, generate_uuid i.source i.email i.name i.username = .ok fp ∧
      st.reg.identities.lookup fp = some s ∧ st.uuid = some u ∧ pyFalsy st.uuid = false ∧
      u ≠ s ∧ individual_is_locked st.reg s = true ∧
      load_identity_step st i = st) ∨
    (∃ fp s u, generate_uuid i.source i.email i.name i.username = .ok fp ∧
      st.reg.identities.lookup fp = some s ∧ st.uuid = some u ∧ pyFalsy st.uuid = false ∧
      u ≠ s ∧ individual_is_locked st.reg s = false ∧
      load_identity_step st i =
        { st with reg := merge st.reg [u] s, uuid := some s,
                  merges := st.merges ++ [([u], s)] }) := by
  cases hg : generate_uuid i.source i.email i.name i.username with
  | error msg =>
    have ha : add_identity st.reg i.source i.email i.name i.username st.uuid =
        .error (.invalidValue msg) := by
      simp [add_identity, hg]
    left
    refine ⟨rfl, ?_⟩
    unfold load_identity_step
    rw [ha]
  | ok fp =>
    cases hl : st.reg.identities.lookup fp with
    | none =>
      cases hf : pyFalsy st.uuid with
      | true =>
        have ha : add_identity st.reg i.source i.email i.name i.username st.uuid =
            .ok ({ st.reg with individuals := (fp, false) :: st.reg.individuals,
                               identities := (fp, fp) :: st.reg.identities }, fp) := by
          simp [add_identity, hg, hl, hf]
        right; left
        refine ⟨fp, rfl, hl, rfl, ?_⟩
        unfold load_identity_step
        rw [ha, hf]
        rfl
      | false =>
        cases hu : st.uuid with
        | none => rw [hu] at hf; simp [pyFalsy] at hf
        | some u =>
          have hf2 : pyFalsy (some u) = false := by rw [← hu]; exact hf
          have ha : add_identity st.reg i.source i.email i.name i.username st.uuid =
              .ok ({ st.reg with identities := (fp, u) :: st.reg.identities }, u) := by
            simp [add_identity, hg, hl, hu, hf2]
          right; right; left
          refine ⟨fp, u, rfl, hl, rfl, rfl, ?_⟩
          unfold load_identity_step
          rw [ha, hf, hu]
          rfl
    | some s =>
      have ha : add_identity st.reg i.source i.email i.name i.username st.uuid =
          .error (.alreadyExists fp) := by
        simp [add_identity, hg, hl]
      have hfind : find_identity st.reg fp = some s := hl
      cases hf : pyFalsy st.uuid with
      | true =>
        right; right; right; left
        refine ⟨fp, s, rfl, hl, Or.inl rfl, ?_⟩
        simp [load_identity_step, ha, hfind, hf]
      | false =>
        cases hu : st.uuid with
        | none => rw [hu] at hf; simp [pyFalsy] at hf
        | some u =>
          have hf2 : pyFalsy (some u) = false := by rw [← hu]; exact hf
          have ha2 : add_identity st.reg i.source i.email i.name i.username (some u) =
              .error (.alreadyExists fp) := by rw [← hu]; exact ha
          have hred : load_identity_step st i =
              (if u = s then { st with uuid := some u }
               else if individual_is_locked st.reg s then { st with uuid := some u }
               else { st with reg := merge st.reg [u] s, uuid := some s,
                              merges := st.merges ++ [([u], s)] }) := by
            simp [load_identity_step, ha, ha2, hfind, hf, hf2, hu]
          by_cases hus : u = s
          · right; right; right; left
            refine ⟨fp, s, rfl, hl, Or.inr (by rw [hus]), ?_⟩
            rw [hred, if_pos hus, hus]
          · cases hlock : individual_is_locked st.reg s with
            | true =>
              right; right; right; right; left
              refine ⟨fp, s, u, rfl, hl, rfl, rfl, hus, hlock, ?_⟩
              rw [hred, if_neg hus, if_pos hlock, ← hu]
            | false =>
              right; right; right; right; right
              refine ⟨fp, s, u, rfl, hl, rfl, rfl, hus, hlock, ?_⟩
              have hlockne : ¬(individual_is_locked st.reg s = true) := by
                simp [hlock]
              rw [hred, if_neg hus, if_neg hlockne]

/-! ## Claim C10: an unset working id implies a zero created count -/

/-- A step that ends with no working uuid changed nothing and started with
no working uuid. -/
theorem load_identity_step_uuid_none (st : LoadState) (i : RawIdentity)
    (h : (load_identity_step st i).uuid = none) :
    load_identity_step st i = st ∧ st.uuid = none := by
  rcases load_identity_step_cases st i with
    ⟨_, hstep⟩ | ⟨fp, _, _, _, hstep⟩ | ⟨fp, u, _, _, hu, _, hstep⟩ |
    ⟨fp, s, _, _, _, hstep⟩ | ⟨fp, s, u, _, _, hu, _, _, _, hstep⟩ |
    ⟨fp, s, u, _, _, hu, _, _, _, hstep⟩
  · rw [hstep] at h; exact ⟨hstep, h⟩
  · rw [hstep] at h; simp at h
  · rw [hstep] at h; simp [hu] at h
  · rw [hstep] at h; simp at h
  · rw [hstep] at h; rw [hu] at h; simp at h
  · rw [hstep] at h; simp at h

/-- Folding the step over a list and ending with no working uuid leaves the
initial state untouched. -/
theorem foldl_step_uuid_none (ids : List RawIdentity) : ∀ st : LoadState,
    (ids.foldl load_identity_step st).uuid = none →
    ids.foldl load_identity_step st = st := by
  induction ids with
  | nil => intro st _; rfl
  | cons i ids ih =>
    intro st h
    rw [List.foldl_cons] at h ⊢
    have h2 := ih (load_identity_step st i) h
    rw [h2] at h ⊢
    exact (load_identity_step_uuid_none st i h).1

/-- C10: whenever `__load_identities` returns an unset canonical id, its
created-identity count is zero. -/
theorem c10_unset_uuid_zero_count (r : Registry) (ids : List RawIdentity)
    (h : (load_identities r ids).uuid = none) :
    (load_identities r ids).nidentities = 0 := by
  unfold load_identities at h ⊢
  rw [foldl_step_uuid_none ids _ h]

/-- Witness for C10: a candidate whose only identity has an empty source. -/
theorem c10_unset_uuid_zero_count_witness :
    (load_identities emptyRegistry [⟨some "", none, none, none⟩]).uuid = none ∧
    (load_identities emptyRegistry [⟨some "", none, none, none⟩]).nidentities = 0 :=
  ⟨by decide, c10_unset_uuid_zero_count emptyRegistry [⟨some "", none, none, none⟩] (by decide)⟩

/-! ## Claim C9: enrollment clamping -/

/-- A successful `enroll` stored exactly the given row, and presupposes a
valid period and a known group. -/
theorem enroll_ok (r : Registry) (u g : String) (f t : Int) (r2 : Registry)
    (h : enroll r u g f t = .ok r2) :
    r2 = { r with enrollments := ⟨u, g, f, t⟩ :: r.enrollments } ∧ f ≤ t ∧
    g ∈ r.organizations := by
  unfold enroll at h
  by_cases h1 : t < f
  · simp [h1] at h
  · by_cases h2 : g ∈ r.organizations
    · by_cases h3 : (⟨u, g, f, t⟩ : Enrollment) ∈ r.enrollments
      · simp [h1, h2, h3] at h
      · simp [h1, h2, h3] at h
        exact ⟨h.symm, by omega, h2⟩
    · simp [h1, h2] at h

/-- The organization-creation block never touches the enrollment table. -/
theorem add_organization_pass_enrollments (r : Registry) (n : String) :
    (add_organization_pass r n).enrollments = r.enrollments := by
  by_cases hc : n ∈ r.organizations <;>
    simp [add_organization_pass, add_organization, hc]

/-- C9 (amended): every enrollment row stored by one enrollment step is the
claimed row with its period clamped to the global range — in particular a
start before `MIN_PERIOD_DATE` is stored as `MIN_PERIOD_DATE` and an end
after `MAX_PERIOD_DATE` as `MAX_PERIOD_DATE`. (Claims overlapping the range
are truncated; a claim lying entirely outside it clamps to an empty period
and is rejected with a `LoadError` — see the counterexample.) -/
theorem c9_enrollment_clamping (r : Registry) (u : String) (e : EnrollmentClaim)
    (t : Enrollment) (hmem : t ∈ (load_enrollment_step r u e).1.enrollments)
    (hnew : t ∉ r.enrollments) :
    t = ⟨u, e.organization, max MIN_PERIOD_DATE e.start, min MAX_PERIOD_DATE e.end_⟩ ∧
    (e.start < MIN_PERIOD_DATE → t.from_date = MIN_PERIOD_DATE) ∧
    (MAX_PERIOD_DATE < e.end_ → t.to_date = MAX_PERIOD_DATE) := by
  have h1 : (add_organization_pass r e.organization).enrollments = r.enrollments :=
    add_organization_pass_enrollments r e.organization
  have hstep_eq : load_enrollment_step r u e =
      (match enroll (add_organization_pass r e.organization) u e.organization
          (max MIN_PERIOD_DATE e.start) (min MAX_PERIOD_DATE e.end_) with
       | .ok r2 => (r2, none)
       | .error .alreadyExists => (add_organization_pass r e.organization, none)
       | .error (.invalidValue m) => (add_organization_pass r e.organization, some m)
       | .error (.notFound m) => (add_organization_pass r e.organization, some m)) := rfl
  rw [hstep_eq] at hmem
  cases he : enroll (add_organization_pass r e.organization) u e.organization
      (max MIN_PERIOD_DATE e.start) (min MAX_PERIOD_DATE e.end_) with
  | ok r2 =>
    rw [he] at hmem
    obtain ⟨hr2, _, _⟩ := enroll_ok _ _ _ _ _ _ he
    simp only [hr2, h1] at hmem
    rcases List.mem_cons.mp hmem with ht | ht
    · subst ht
      refine ⟨rfl, ?_, ?_⟩
      · intro hlt
        show max MIN_PERIOD_DATE e.start = MIN_PERIOD_DATE
        omega
      · intro hlt
        show min MAX_PERIOD_DATE e.end_ = MAX_PERIOD_DATE
        omega
    · exact absurd ht hnew
  | error err =>
    rw [he] at hmem
    cases err <;> simp only [h1] at hmem <;> exact absurd hmem hnew

/-- Witness for C9 (amended): a claim starting before the valid range is
stored with its start clamped to `MIN_PERIOD_DATE`. -/
theorem c9_enrollment_clamping_witness :
    (⟨"x", "Org", max MIN_PERIOD_DATE 1800, min MAX_PERIOD_DATE 1950⟩ : Enrollment) ∈
      (load_enrollment_step emptyRegistry "x" ⟨"Org", 1800, 1950⟩).1.enrollments ∧
    ((⟨"x", "Org", max MIN_PERIOD_DATE 1800, min MAX_PERIOD_DATE 1950⟩ : Enrollment) =
        ⟨"x", "Org", max MIN_PERIOD_DATE 1800, min MAX_PERIOD_DATE 1950⟩ ∧
      ((1800 : Int) < MIN_PERIOD_DATE →
        (⟨"x", "Org", max MIN_PERIOD_DATE 1800, min MAX_PERIOD_DATE 1950⟩ : Enrollment).from_date =
          MIN_PERIOD_DATE) ∧
      (MAX_PERIOD_DATE < (1950 : Int) →
        (⟨"x", "Org", max MIN_PERIOD_DATE 1800, min MAX_PERIOD_DATE 1950⟩ : Enrollment).to_date =
          MAX_PERIOD_DATE)) :=
  ⟨by decide,
   c9_enrollment_clamping emptyRegistry "x" ⟨"Org", 1800, 1950⟩
     ⟨"x", "Org", max MIN_PERIOD_DATE 1800, min MAX_PERIOD_DATE 1950⟩
     (by decide) (by decide)⟩

/-- C9 (counterexample): a claim lying entirely before the valid range is
rejected with a `LoadError` and nothing is stored — refuting "claims outside
the range are truncated, not rejected". -/
theorem c9_enrollment_clamping_counterexample :
    (load_enrollments emptyRegistry [⟨"Org", 1800, 1850⟩] "x").2.isSome = true ∧
    (load_enrollments emptyRegistry [⟨"Org", 1800, 1850⟩] "x").1.enrollments = [] := by
  constructor
  · decide
  · decide

/-- A copy of `wit_reg` whose individual `"S"` is locked. -/
def wit_reg_locked : Registry := ⟨[("U", false), ("S", true)], [(wit_fpb, "S")], [], []⟩

/-- Witness for C8 at a concrete state: the locked owner `"S"` blocks the
merge and the state is unchanged. -/
theorem c8_locked_skip_witness :
    load_identity_step ⟨wit_reg_locked, some "U", 1, []⟩ wit_ib =
      ⟨wit_reg_locked, some "U", 1, []⟩ :=
  c8_locked_skip ⟨wit_reg_locked, some "U", 1, []⟩ wit_ib wit_fpb "U" "S"
    (by rfl) (by rfl) rfl (by decide) (by decide) (by rfl)

/-! ## Claim C3: a LoadError aborts the batch, not just the candidate -/

/-- A candidate with one valid identity and an invalid enrollment claim
(start after end, both inside the valid range, so clamping keeps them). -/
def c3_bad : CandidateIndividual :=
  ⟨[⟨some "scm", some "a@example.com", none, none⟩], [⟨"Org", 2000, 1990⟩]⟩

/-- A following candidate with one valid identity and no enrollments. -/
def c3_next : CandidateIndividual :=
  ⟨[⟨some "git", some "b@example.com", none, none⟩], []⟩

/-- C3 (counterexample): an enrollment `LoadError` in the first candidate
leaves the whole batch in exactly the state of loading the first candidate
alone — the second candidate is never processed — although loading the
second candidate by itself would create one identity. This refutes "the
Import Driver then continues processing the next candidate". -/
theorem c3_loaderror_counterexample :
    (load emptyRegistry [c3_bad, c3_next]).error.isSome = true ∧
    load emptyRegistry [c3_bad, c3_next] = load emptyRegistry [c3_bad] ∧
    (load emptyRegistry [c3_next]).total = 1 := by
  refine ⟨by decide, by decide, by decide⟩

/-- C3 (amended): an enrollment failure raises a `LoadError` that skips the
candidate's remaining enrollment claims and then propagates out of `load`,
so the remaining candidates of the batch are not processed at all. -/
theorem c3_loaderror_aborts_batch (r r1e : Registry) (c : CandidateIndividual)
    (rest : List CandidateIndividual) (u m : String) (e : EnrollmentClaim)
    (es : List EnrollmentClaim) :
    (load_enrollment_step r1e u e = (r1e, some m) →
        load_enrollments r1e (e :: es) u = (r1e, some m)) ∧
    ((load_identities r c.identities).uuid = some u → u ≠ "" →
      load_enrollments (load_identities r c.identities).reg c.enrollments u =
        (r1e, some m) →
      load r (c :: rest) = ⟨r1e, 0, some m, (load_identities r c.identities).merges⟩) := by
  constructor
  · intro hstep
    simp only [load_enrollments, hstep]
  · intro hu hne herr
    have hfalsy : pyFalsy (some u) = false := by simp [pyFalsy, hne]
    simp only [load, hu, hfalsy, Bool.false_eq_true, if_false, herr]

/-- Witness for C3 (amended): the `c3_bad` candidate followed by `c3_next`. -/
theorem c3_loaderror_aborts_batch_witness :
    load emptyRegistry [c3_bad, c3_next] =
      ⟨(load_enrollments (load_identities emptyRegistry c3_bad.identities).reg
          c3_bad.enrollments
          ((load_identities emptyRegistry c3_bad.identities).uuid.getD "")).1,
        0, some "start date greater than end date",
        (load_identities emptyRegistry c3_bad.identities).merges⟩ :=
  (c3_loaderror_aborts_batch emptyRegistry
      (load_enrollments (load_identities emptyRegistry c3_bad.identities).reg
          c3_bad.enrollments
          ((load_identities emptyRegistry c3_bad.identities).uuid.getD "")).1
      c3_bad [c3_next]
      ((load_identities emptyRegistry c3_bad.identities).uuid.getD "")
      "start date greater than end date" ⟨"Org", 2000, 1990⟩ []).2
    (by decide) (by decide) (by decide)

/-! ## Claim C2 (counterexample): a locked individual merged away -/

/-- A well-formed registry in which a locked individual owns `wit_ia`'s
fingerprint and an unlocked individual owns `wit_ib`'s (each individual's
canonical id is its first identity's fingerprint, as in the real registry). -/
def ce2_reg : Registry :=
  ⟨[(wit_fpa, true), (wit_fpb, false)],
   [(wit_fpa, wit_fpa), (wit_fpb, wit_fpb)], [], []⟩

/-- The candidate whose first identity belongs to the locked individual. -/
def ce2_cand : CandidateIndividual := ⟨[wit_ia, wit_ib], []⟩

/-! ## Infrastructure for the idempotence claim (C5) -/

/-- The fingerprint of a raw identity when its attributes are valid. -/
def validFp (i : RawIdentity) : Option String :=
  (generate_uuid i.source i.email i.name i.username).toOption

/-- The fingerprints of the valid raw identities of a list, in order. -/
def validFps (ids : List RawIdentity) : List String := ids.filterMap validFp

/-- All valid fingerprints of a candidate sequence. -/
def allValidFps (cands : List CandidateIndividual) : List String :=
  cands.flatMap (fun c => validFps c.identities)

/-- A SHA-1 hex digest is never the empty string. -/
theorem sha1hexString_ne_empty (msg : List Nat) : sha1hexString msg ≠ "" := by
  unfold sha1hexString
  rcases sha1State msg with ⟨h0, h1, h2, h3, h4⟩
  simp [wordHex, String.ext_iff]

/-- Valid fingerprints are nonempty strings. -/
theorem validFp_ne_empty (i : RawIdentity) (fp : String) (h : validFp i = some fp) :
    fp ≠ "" := by
  unfold validFp generate_uuid at h
  split_ifs at h <;> simp [Except.toOption] at h
  rw [← h]
  exact sha1hexString_ne_empty _

theorem lookup_cons_self {β : Type} (k : String) (v : β) (l : List (String × β)) :
    ((k, v) :: l).lookup k = some v := by
  simp [List.lookup]

theorem lookup_cons_ne {β : Type} (k a : String) (v : β) (l : List (String × β))
    (h : a ≠ k) : ((k, v) :: l).lookup a = l.lookup a := by
  simp [List.lookup, beq_eq_false_iff_ne.mpr h]

theorem lookup_none_keys {β : Type} (l : List (String × β)) (k : String) :
    l.lookup k = none ↔ k ∉ l.map Prod.fst := by
  induction l with
  | nil => simp
  | cons a l ih =>
    obtain ⟨ka, va⟩ := a
    by_cases hk : k = ka
    · subst hk
      simp [lookup_cons_self]
    · rw [lookup_cons_ne _ _ _ _ hk]
      simp [ih, hk]

theorem lookup_some_keys {β : Type} (l : List (String × β)) (k : String) :
    (∃ v, l.lookup k = some v) ↔ k ∈ l.map Prod.fst := by
  rw [← not_iff_not, ← lookup_none_keys]
  cases h : l.lookup k <;> simp

/-- `merge` preserves the fingerprint keys of the identity table. -/
theorem merge_keys (r : Registry) (fs : List String) (t : String) :
    (merge r fs t).identities.map Prod.fst = r.identities.map Prod.fst := by
  rw [merge_identities, List.map_map]
  rfl

/-- Registries reachable from a fresh registry: no locked individuals, no
empty-string owners, and no duplicated fingerprint keys. -/
def GoodReg (r : Registry) : Prop :=
  (∀ p ∈ r.individuals, p.2 = false) ∧
  (∀ p ∈ r.identities, p.2 ≠ "") ∧
  (r.identities.map Prod.fst).Nodup

/-- A well-formed working uuid: unset, or a nonempty canonical id. -/
def UuidOk (st : LoadState) : Prop :=
  st.uuid = none ∨ ∃ u, st.uuid = some u ∧ u ≠ ""

/-- One reconciliation step preserves `GoodReg` and `UuidOk` and never
touches organizations or enrollments. -/
theorem step_basic (st : LoadState) (i : RawIdentity)
    (hg : GoodReg st.reg) (hu : UuidOk st) :
    GoodReg (load_identity_step st i).reg ∧ UuidOk (load_identity_step st i) ∧
    (load_identity_step st i).reg.organizations = st.reg.organizations ∧
    (load_identity_step st i).reg.enrollments = st.reg.enrollments := by
  obtain ⟨hnl, hne, hnd⟩ := hg
  rcases load_identity_step_cases st i with
    ⟨_, hstep⟩ | ⟨fp, hfp, hl, _, hstep⟩ | ⟨fp, u, hfp, hl, huu, _, hstep⟩ |
    ⟨fp, s, hfp, hl, _, hstep⟩ | ⟨fp, s, u, hfp, hl, huu, _, _, _, hstep⟩ |
    ⟨fp, s, u, hfp, hl, huu, _, _, hlock, hstep⟩
  · rw [hstep]; exact ⟨⟨hnl, hne, hnd⟩, hu, rfl, rfl⟩
  · have hfpne : fp ≠ "" := validFp_ne_empty i fp (by rw [validFp, hfp]; rfl)
    rw [hstep]
    refine ⟨⟨?_, ?_, ?_⟩, ?_, rfl, rfl⟩
    · intro p hp
      rcases List.mem_cons.mp hp with h | h
      · rw [h]
      · exact hnl p h
    · intro p hp
      rcases List.mem_cons.mp hp with h | h
      · rw [h]; exact hfpne
      · exact hne p h
    · simp only [List.map_cons]
      exact List.nodup_cons.mpr ⟨(lookup_none_keys _ _).mp hl, hnd⟩
    · right; exact ⟨fp, rfl, hfpne⟩
  · have hune : u ≠ "" := by
      rcases hu with h | ⟨u', h, hne'⟩
      · rw [huu] at h; exact absurd h (by simp)
      · rw [huu] at h; injection h with h; rw [h]; exact hne'
    rw [hstep]
    refine ⟨⟨hnl, ?_, ?_⟩, ?_, rfl, rfl⟩
    · intro p hp
      rcases List.mem_cons.mp hp with h | h
      · rw [h]; exact hune
      · exact hne p h
    · simp only [List.map_cons]
      exact List.nodup_cons.mpr ⟨(lookup_none_keys _ _).mp hl, hnd⟩
    · right; exact ⟨u, huu, hune⟩
  · have hsne : s ≠ "" := hne _ (lookup_mem hl)
    rw [hstep]
    exact ⟨⟨hnl, hne, hnd⟩, Or.inr ⟨s, rfl, hsne⟩, rfl, rfl⟩
  · rw [hstep]
    exact ⟨⟨hnl, hne, hnd⟩, hu, rfl, rfl⟩
  · have hsne : s ≠ "" := hne _ (lookup_mem hl)
    rw [hstep]
    refine ⟨⟨?_, ?_, ?_⟩, Or.inr ⟨s, rfl, hsne⟩, rfl, rfl⟩
    · intro p hp
      exact hnl p (List.mem_of_mem_filter hp)
    · intro p hp
      rw [merge_identities] at hp
      rcases List.mem_map.mp hp with ⟨q, hq, hqe⟩
      by_cases hc : [u].contains q.2
      · rw [← hqe]; simp only [hc, if_true]; exact hsne
      · rw [← hqe]; simp only [hc, Bool.false_eq_true, if_false]; exact hne q hq
    · rw [merge_keys]; exact hnd

/-- The whole identity fold preserves `GoodReg` and `UuidOk` and never
touches organizations or enrollments. -/
theorem fold_basic (ids : List RawIdentity) : ∀ st : LoadState,
    GoodReg st.reg → UuidOk st →
    GoodReg (ids.foldl load_identity_step st).reg ∧
    UuidOk (ids.foldl load_identity_step st) ∧
    (ids.foldl load_identity_step st).reg.organizations = st.reg.organizations ∧
    (ids.foldl load_identity_step st).reg.enrollments = st.reg.enrollments := by
  induction ids with
  | nil => intro st hg hu; exact ⟨hg, hu, rfl, rfl⟩
  | cons i ids ih =>
    intro st hg hu
    obtain ⟨hg1, hu1, ho1, he1⟩ := step_basic st i hg hu
    obtain ⟨hg2, hu2, ho2, he2⟩ := ih (load_identity_step st i) hg1 hu1
    rw [List.foldl_cons]
    exact ⟨hg2, hu2, ho2.trans ho1, he2.trans he1⟩

/-- One step creates exactly one identity — counting one — when the raw
identity is valid and its fingerprint unseen, and otherwise creates nothing
and counts nothing. -/
theorem step_keys_count (st : LoadState) (i : RawIdentity) :
    ((load_identity_step st i).reg.identities.map Prod.fst =
        st.reg.identities.map Prod.fst ∧
     (load_identity_step st i).nidentities = st.nidentities ∧
     (validFp i = none ∨
       ∃ fp, validFp i = some fp ∧ fp ∈ st.reg.identities.map Prod.fst)) ∨
    (∃ fp, validFp i = some fp ∧ fp ∉ st.reg.identities.map Prod.fst ∧
     (load_identity_step st i).reg.identities.map Prod.fst =
        fp :: st.reg.identities.map Prod.fst ∧
     (load_identity_step st i).nidentities = st.nidentities + 1) := by
  rcases load_identity_step_cases st i with
    ⟨hfp, hstep⟩ | ⟨fp, hfp, hl, _, hstep⟩ | ⟨fp, u, hfp, hl, _, _, hstep⟩ |
    ⟨fp, s, hfp, hl, _, hstep⟩ | ⟨fp, s, u, hfp, hl, _, _, _, _, hstep⟩ |
    ⟨fp, s, u, hfp, hl, _, _, _, _, hstep⟩
  · left; rw [hstep]; exact ⟨rfl, rfl, Or.inl hfp⟩
  · right
    refine ⟨fp, by unfold validFp; rw [hfp]; rfl, (lookup_none_keys _ _).mp hl, ?_, ?_⟩
    · rw [hstep]; rfl
    · rw [hstep]
  · right
    refine ⟨fp, by unfold validFp; rw [hfp]; rfl, (lookup_none_keys _ _).mp hl, ?_, ?_⟩
    · rw [hstep]; rfl
    · rw [hstep]
  · left; rw [hstep]
    exact ⟨rfl, rfl, Or.inr ⟨fp, by unfold validFp; rw [hfp]; rfl,
      (lookup_some_keys _ _).mp ⟨s, hl⟩⟩⟩
  · left; rw [hstep]
    exact ⟨rfl, rfl, Or.inr ⟨fp, by unfold validFp; rw [hfp]; rfl,
      (lookup_some_keys _ _).mp ⟨s, hl⟩⟩⟩
  · left; rw [hstep]
    exact ⟨merge_keys _ _ _, rfl, Or.inr ⟨fp, by unfold validFp; rw [hfp]; rfl,
      (lookup_some_keys _ _).mp ⟨s, hl⟩⟩⟩

/-- Over a whole fold: the fingerprint keys stay duplicate-free, the final
key set is the initial one plus this candidate's valid fingerprints, and the
identity table grows by exactly the number counted. -/
theorem fold_keys_count (ids : List RawIdentity) : ∀ st : LoadState,
    (st.reg.identities.map Prod.fst).Nodup →
    ((ids.foldl load_identity_step st).reg.identities.map Prod.fst).Nodup ∧
    (∀ fp, fp ∈ (ids.foldl load_identity_step st).reg.identities.map Prod.fst ↔
      fp ∈ st.reg.identities.map Prod.fst ∨ fp ∈ validFps ids) ∧
    (ids.foldl load_identity_step st).reg.identities.length + st.nidentities =
      st.reg.identities.length + (ids.foldl load_identity_step st).nidentities := by
  induction ids with
  | nil =>
    intro st hnd
    exact ⟨hnd, fun fp => by simp [validFps], rfl⟩
  | cons i ids ih =>
    intro st hnd
    rw [List.foldl_cons]
    rcases step_keys_count st i with ⟨hk, hn, hv⟩ | ⟨fp0, hfp0, hnm, hk, hn⟩
    · have hnd1 : ((load_identity_step st i).reg.identities.map Prod.fst).Nodup := by
        rw [hk]; exact hnd
      obtain ⟨nd2, hiff, hlen⟩ := ih (load_identity_step st i) hnd1
      have hlon : (load_identity_step st i).reg.identities.length =
          st.reg.identities.length := by
        have := congrArg List.length hk
        simpa using this
      refine ⟨nd2, ?_, by omega⟩
      intro fp
      rw [hiff fp, hk]
      rcases hv with hv | ⟨fp1, hfp1, hmem⟩
      · simp [validFps, List.filterMap_cons, hv]
      · simp only [validFps, List.filterMap_cons, hfp1]
        constructor
        · rintro (h | h)
          · exact Or.inl h
          · exact Or.inr (List.mem_cons_of_mem _ h)
        · rintro (h | h)
          · exact Or.inl h
          · rcases List.mem_cons.mp h with h | h
            · subst h; exact Or.inl hmem
            · exact Or.inr h
    · have hnd1 : ((load_identity_step st i).reg.identities.map Prod.fst).Nodup := by
        rw [hk]; exact List.nodup_cons.mpr ⟨hnm, hnd⟩
      obtain ⟨nd2, hiff, hlen⟩ := ih (load_identity_step st i) hnd1
      have hlon : (load_identity_step st i).reg.identities.length =
          st.reg.identities.length + 1 := by
        have := congrArg List.length hk
        simpa using this
      refine ⟨nd2, ?_, by omega⟩
      intro fp
      rw [hiff fp, hk]
      simp only [validFps, List.filterMap_cons, hfp0, List.mem_cons]
      constructor
      · rintro ((h | h) | h)
        · exact Or.inr (Or.inl h)
        · exact Or.inl h
        · exact Or.inr (Or.inr h)
      · rintro (h | h | h)
        · exact Or.inl (Or.inr h)
        · exact Or.inl (Or.inl h)
        · exact Or.inr h

/-- With no locked individuals in the registry, the lock test is always
false. -/
theorem noLocked_is_locked_false (r : Registry)
    (h : ∀ p ∈ r.individuals, p.2 = false) (s : String) :
    individual_is_locked r s = false := by
  unfold individual_is_locked
  cases hli : r.individuals.lookup s with
  | none => rfl
  | some b =>
    have := h _ (lookup_mem hli)
    simpa using this

/-- Ownership recorded before a fold is rewritten through a single owner
substitution: co-owned fingerprints stay co-owned. -/
theorem fold_owner_subst (ids : List RawIdentity) : ∀ st : LoadState,
    ∃ g : String → String,
      ∀ fp m, st.reg.identities.lookup fp = some m →
        (ids.foldl load_identity_step st).reg.identities.lookup fp = some (g m) := by
  induction ids with
  | nil => intro st; exact ⟨fun m => m, fun fp m h => h⟩
  | cons i ids ih =>
    intro st
    obtain ⟨g2, hg2⟩ := ih (load_identity_step st i)
    rw [List.foldl_cons]
    rcases load_identity_step_cases st i with
      ⟨_, hstep⟩ | ⟨fp0, _, hl, _, hstep⟩ | ⟨fp0, u, _, hl, _, _, hstep⟩ |
      ⟨fp0, s, _, _, _, hstep⟩ | ⟨fp0, s, u, _, _, _, _, _, _, hstep⟩ |
      ⟨fp0, s, u, _, _, _, _, _, _, hstep⟩
    · exact ⟨g2, fun fp m h => hg2 fp m (by rw [hstep]; exact h)⟩
    · refine ⟨g2, fun fp m h => hg2 fp m ?_⟩
      rw [hstep]
      show ((fp0, fp0) :: st.reg.identities).lookup fp = some m
      rw [lookup_cons_ne]
      · exact h
      · intro hfpe
        rw [hfpe, hl] at h
        exact Option.noConfusion h
    · refine ⟨g2, fun fp m h => hg2 fp m ?_⟩
      rw [hstep]
      show ((fp0, u) :: st.reg.identities).lookup fp = some m
      rw [lookup_cons_ne]
      · exact h
      · intro hfpe
        rw [hfpe, hl] at h
        exact Option.noConfusion h
    · exact ⟨g2, fun fp m h => hg2 fp m (by rw [hstep]; exact h)⟩
    · exact ⟨g2, fun fp m h => hg2 fp m (by rw [hstep]; exact h)⟩
    · refine ⟨fun m => g2 (if [u].contains m then s else m), fun fp m h => ?_⟩
      apply hg2
      rw [hstep]
      show (merge st.reg [u] s).identities.lookup fp = _
      rw [merge_lookup, h]
      rfl

/-- Once the working uuid owns a fingerprint, it goes on owning it (through
merges) until the end of the candidate, under the final working uuid. -/
theorem fold_tracked (ids : List RawIdentity) : ∀ (st : LoadState) (u : String),
    GoodReg st.reg → st.uuid = some u → u ≠ "" →
    ∃ u', (ids.foldl load_identity_step st).uuid = some u' ∧ u' ≠ "" ∧
      ∀ fp, st.reg.identities.lookup fp = some u →
        (ids.foldl load_identity_step st).reg.identities.lookup fp = some u' := by
  induction ids with
  | nil =>
    intro st u _ hu hune
    exact ⟨u, hu, hune, fun fp h => h⟩
  | cons i ids ih =>
    intro st u hg hu hune
    have huo : UuidOk st := Or.inr ⟨u, hu, hune⟩
    obtain ⟨hg1, _, _, _⟩ := step_basic st i hg huo
    rw [List.foldl_cons]
    rcases load_identity_step_cases st i with
      ⟨_, hstep⟩ | ⟨fp0, _, hl, hfalsy, hstep⟩ | ⟨fp0, u0, _, hl, hu0, _, hstep⟩ |
      ⟨fp0, s, _, hl, hdisj, hstep⟩ | ⟨fp0, s, u0, _, hl, hu0, _, _, hlock, hstep⟩ |
      ⟨fp0, s, u0, _, hl, hu0, _, hus, _, hstep⟩
    · obtain ⟨u', h1, h2, h3⟩ := ih (load_identity_step st i) u
        (by rw [hstep]; exact hg) (by rw [hstep]; exact hu) hune
      exact ⟨u', h1, h2, fun fp h => h3 fp (by rw [hstep]; exact h)⟩
    · rw [hu] at hfalsy
      simp only [pyFalsy] at hfalsy
      exact absurd (eq_of_beq hfalsy) hune
    · have hu0u : u0 = u := by rw [hu0] at hu; injection hu
      subst hu0u
      obtain ⟨u', h1, h2, h3⟩ := ih (load_identity_step st i) u0
        (by rw [hstep] at hg1; rw [hstep]; exact hg1) (by rw [hstep]; exact hu0) hune
      refine ⟨u', h1, h2, fun fp h => h3 fp ?_⟩
      rw [hstep]
      show ((fp0, u0) :: st.reg.identities).lookup fp = some u0
      rw [lookup_cons_ne]
      · exact h
      · intro hfpe
        rw [hfpe, hl] at h
        exact Option.noConfusion h
    · rcases hdisj with hfalsy | hsome
      · rw [hu] at hfalsy
        simp only [pyFalsy] at hfalsy
        exact absurd (eq_of_beq hfalsy) hune
      · have hsu : s = u := by rw [hsome] at hu; injection hu
        subst hsu
        obtain ⟨u', h1, h2, h3⟩ := ih (load_identity_step st i) s
          (by rw [hstep]; exact hg) (by rw [hstep]) hune
        exact ⟨u', h1, h2, fun fp h => h3 fp (by rw [hstep]; exact h)⟩
    · exact absurd hlock (by rw [noLocked_is_locked_false st.reg hg.1 s]; simp)
    · have hu0u : u0 = u := by rw [hu0] at hu; injection hu
      subst hu0u
      have hsne : s ≠ "" := hg.2.1 _ (lookup_mem hl)
      obtain ⟨u', h1, h2, h3⟩ := ih (load_identity_step st i) s
        (by rw [hstep] at hg1; rw [hstep]; exact hg1) (by rw [hstep]) hsne
      refine ⟨u', h1, h2, fun fp h => h3 fp ?_⟩
      rw [hstep]
      show (merge st.reg [u0] s).identities.lookup fp = some s
      rw [merge_lookup, h]
      simp

/-- Every valid fingerprint of a candidate ends the candidate's fold owned
by the final working uuid. -/
theorem fold_processed_owned (ids : List RawIdentity) : ∀ st : LoadState,
    GoodReg st.reg → UuidOk st →
    ∀ j ∈ ids, ∀ fp, validFp j = some fp →
      ∃ u', (ids.foldl load_identity_step st).uuid = some u' ∧ u' ≠ "" ∧
        (ids.foldl load_identity_step st).reg.identities.lookup fp = some u' := by
  induction ids with
  | nil => intro st _ _ j hj; exact absurd hj (List.not_mem_nil j)
  | cons i ids ih =>
    intro st hg hu j hj fp hfp
    obtain ⟨hg1, hu1, _, _⟩ := step_basic st i hg hu
    rw [List.foldl_cons]
    rcases List.mem_cons.mp hj with hji | hji
    · subst hji
      rcases load_identity_step_cases st j with
        ⟨hinv, hstep⟩ | ⟨fp0, hfp0, hl, _, hstep⟩ | ⟨fp0, u0, hfp0, hl, hu0, _, hstep⟩ |
        ⟨fp0, s, hfp0, hl, _, hstep⟩ | ⟨fp0, s, u0, _, hl, _, _, _, hlock, hstep⟩ |
        ⟨fp0, s, u0, hfp0, hl, hu0, _, hus, _, hstep⟩
      · unfold validFp at hfp
        rw [hinv] at hfp
        exact Option.noConfusion hfp
      · have hfpe : fp0 = fp := by
          unfold validFp at hfp
          rw [hfp0] at hfp
          injection hfp
        subst hfpe
        have hfp0ne : fp0 ≠ "" := validFp_ne_empty j fp0 hfp
        obtain ⟨u', h1, h2, h3⟩ := fold_tracked ids (load_identity_step st j) fp0
          (by rw [hstep] at hg1 ⊢; exact hg1) (by rw [hstep]) hfp0ne
        refine ⟨u', h1, h2, h3 fp0 ?_⟩
        rw [hstep]
        exact lookup_cons_self fp0 fp0 st.reg.identities
      · have hfpe : fp0 = fp := by
          unfold validFp at hfp
          rw [hfp0] at hfp
          injection hfp
        subst hfpe
        have hu0ne : u0 ≠ "" := by
          rcases hu with h | ⟨u1, h, hne1⟩
          · rw [hu0] at h; exact Option.noConfusion h
          · rw [hu0] at h; injection h with h; rw [h]; exact hne1
        obtain ⟨u', h1, h2, h3⟩ := fold_tracked ids (load_identity_step st j) u0
          (by rw [hstep] at hg1 ⊢; exact hg1) (by rw [hstep]; exact hu0) hu0ne
        refine ⟨u', h1, h2, h3 fp0 ?_⟩
        rw [hstep]
        exact lookup_cons_self fp0 u0 st.reg.identities
      · have hfpe : fp0 = fp := by
          unfold validFp at hfp
          rw [hfp0] at hfp
          injection hfp
        subst hfpe
        have hsne : s ≠ "" := hg.2.1 _ (lookup_mem hl)
        obtain ⟨u', h1, h2, h3⟩ := fold_tracked ids (load_identity_step st j) s
          (by rw [hstep]; exact hg) (by rw [hstep]) hsne
        exact ⟨u', h1, h2, h3 fp0 (by rw [hstep]; exact hl)⟩
      · exact absurd hlock (by rw [noLocked_is_locked_false st.reg hg.1 s]; simp)
      · have hfpe : fp0 = fp := by
          unfold validFp at hfp
          rw [hfp0] at hfp
          injection hfp
        subst hfpe
        have hsne : s ≠ "" := hg.2.1 _ (lookup_mem hl)
        obtain ⟨u', h1, h2, h3⟩ := fold_tracked ids (load_identity_step st j) s
          (by rw [hstep] at hg1 ⊢; exact hg1) (by rw [hstep]) hsne
        refine ⟨u', h1, h2, h3 fp0 ?_⟩
        rw [hstep]
        show (merge st.reg [u0] s).identities.lookup fp0 = some s
        rw [merge_lookup, hl]
        simp [Ne.symm hus]
    · exact ih (load_identity_step st i) hg1 hu1 j hji fp hfp

/-- Unfolding equation for one enrollment step. -/
theorem load_enrollment_step_eq (r : Registry) (u : String) (e : EnrollmentClaim) :
    load_enrollment_step r u e =
      (match enroll (add_organization_pass r e.organization) u e.organization
          (max MIN_PERIOD_DATE e.start) (min MAX_PERIOD_DATE e.end_) with
       | .ok r2 => (r2, none)
       | .error .alreadyExists => (add_organization_pass r e.organization, none)
       | .error (.invalidValue m) => (add_organization_pass r e.organization, some m)
       | .error (.notFound m) => (add_organization_pass r e.organization, some m)) := rfl

/-- The organization-creation block touches only the organization list, and
always ends with the requested organization present. -/
theorem add_organization_pass_preserves (r : Registry) (n : String) :
    (add_organization_pass r n).individuals = r.individuals ∧
    (add_organization_pass r n).identities = r.identities ∧
    (∀ x ∈ r.organizations, x ∈ (add_organization_pass r n).organizations) ∧
    n ∈ (add_organization_pass r n).organizations := by
  by_cases hc : n ∈ r.organizations
  · simp [add_organization_pass, add_organization, hc]
  · have hcc : (r.organizations.contains n) = false := by simp [hc]
    simp only [add_organization_pass, add_organization, hcc, Bool.false_eq_true, if_false]
    exact ⟨trivial, trivial, fun x h => List.mem_cons_of_mem _ h, List.mem_cons_self _ _⟩

/-- Unfolding equation for the enrollment phase when a step succeeds. -/
theorem load_enrollments_cons_none (r r1 : Registry) (u : String) (e : EnrollmentClaim)
    (es : List EnrollmentClaim) (hs : load_enrollment_step r u e = (r1, none)) :
    load_enrollments r (e :: es) u = load_enrollments r1 es u := by
  show (match load_enrollment_step r u e with
        | (r2, none) => load_enrollments r2 es u
        | (r2, some m) => (r2, some m)) = _
  rw [hs]

/-- Unfolding equation for the enrollment phase when a step raises. -/
theorem load_enrollments_cons_some (r r1 : Registry) (u m : String) (e : EnrollmentClaim)
    (es : List EnrollmentClaim) (hs : load_enrollment_step r u e = (r1, some m)) :
    load_enrollments r (e :: es) u = (r1, some m) := by
  show (match load_enrollment_step r u e with
        | (r2, none) => load_enrollments r2 es u
        | (r2, some m) => (r2, some m)) = _
  rw [hs]

/-- A successful enroll call touches only the enrollment table. -/
theorem enroll_preserves (r : Registry) (u g : String) (f t : Int) (r2 : Registry)
    (h : enroll r u g f t = .ok r2) :
    r2.individuals = r.individuals ∧ r2.identities = r.identities ∧
    r2.organizations = r.organizations := by
  obtain ⟨h2, _, _⟩ := enroll_ok r u g f t r2 h
  rw [h2]
  exact ⟨rfl, rfl, rfl⟩

/-- One enrollment step never touches individuals or identities, and only
grows the organization list. -/
theorem load_enrollment_step_preserves (r : Registry) (u : String) (e : EnrollmentClaim) :
    (load_enrollment_step r u e).1.individuals = r.individuals ∧
    (load_enrollment_step r u e).1.identities = r.identities ∧
    (∀ x ∈ r.organizations, x ∈ (load_enrollment_step r u e).1.organizations) := by
  rw [load_enrollment_step_eq]
  obtain ⟨hi, hd, ho, _⟩ := add_organization_pass_preserves r e.organization
  cases he : enroll (add_organization_pass r e.organization) u e.organization
      (max MIN_PERIOD_DATE e.start) (min MAX_PERIOD_DATE e.end_) with
  | ok r2 =>
    obtain ⟨a, b, c⟩ := enroll_preserves _ _ _ _ _ _ he
    exact ⟨a.trans hi, b.trans hd, fun x h => by rw [c]; exact ho x h⟩
  | error err =>
    cases err <;> exact ⟨hi, hd, ho⟩

/-- The whole enrollment phase never touches individuals or identities, and
only grows the organization list. -/
theorem load_enrollments_preserves (es : List EnrollmentClaim) : ∀ (r : Registry) (u : String),
    (load_enrollments r es u).1.individuals = r.individuals ∧
    (load_enrollments r es u).1.identities = r.identities ∧
    (∀ x ∈ r.organizations, x ∈ (load_enrollments r es u).1.organizations) := by
  induction es with
  | nil => intro r u; exact ⟨rfl, rfl, fun x h => h⟩
  | cons e es ih =>
    intro r u
    obtain ⟨hi, hd, ho⟩ := load_enrollment_step_preserves r u e
    cases hs : load_enrollment_step r u e with
    | mk r1 err =>
      rw [hs] at hi hd ho
      cases err with
      | none =>
        rw [load_enrollments_cons_none r r1 u e es hs]
        obtain ⟨a, b, c⟩ := ih r1 u
        exact ⟨a.trans hi, b.trans hd, fun x h => c x (ho x h)⟩
      | some m =>
        rw [load_enrollments_cons_some r r1 u m e es hs]
        exact ⟨hi, hd, ho⟩

/-- A duplicate enroll call presupposes a valid period. -/
theorem enroll_already (r : Registry) (u g : String) (f t : Int)
    (h : enroll r u g f t = .error .alreadyExists) : f ≤ t := by
  unfold enroll at h
  by_cases h1 : t < f
  · simp [h1] at h
  · omega

/-- An enrollment step that did not raise had a valid clamped period and
leaves the organization present. -/
theorem load_enrollment_step_ok_facts (r : Registry) (u : String) (e : EnrollmentClaim)
    (r1 : Registry) (h : load_enrollment_step r u e = (r1, none)) :
    max MIN_PERIOD_DATE e.start ≤ min MAX_PERIOD_DATE e.end_ ∧
    e.organization ∈ r1.organizations := by
  rw [load_enrollment_step_eq] at h
  obtain ⟨_, _, _, hn⟩ := add_organization_pass_preserves r e.organization
  cases he : enroll (add_organization_pass r e.organization) u e.organization
      (max MIN_PERIOD_DATE e.start) (min MAX_PERIOD_DATE e.end_) with
  | ok r2 =>
    rw [he] at h
    obtain ⟨hr2, hft, _⟩ := enroll_ok _ _ _ _ _ _ he
    have hr1 : r2 = r1 := by injection h
    refine ⟨hft, ?_⟩
    rw [← hr1, hr2]
    exact hn
  | error err =>
    cases err with
    | alreadyExists =>
      rw [he] at h
      have hr1 : add_organization_pass r e.organization = r1 := by injection h
      exact ⟨enroll_already _ _ _ _ _ he, hr1 ▸ hn⟩
    | invalidValue m =>
      rw [he] at h
      have : (some m : Option String) = none := by injection h
      exact Option.noConfusion this
    | notFound m =>
      rw [he] at h
      have : (some m : Option String) = none := by injection h
      exact Option.noConfusion this

/-- An enrollment phase that did not raise had a valid clamped period for
every claim and ends with every claimed organization present. -/
theorem load_enrollments_ok_facts (es : List EnrollmentClaim) : ∀ (r : Registry) (u : String),
    (load_enrollments r es u).2 = none →
    ∀ e ∈ es, max MIN_PERIOD_DATE e.start ≤ min MAX_PERIOD_DATE e.end_ ∧
      e.organization ∈ (load_enrollments r es u).1.organizations := by
  induction es with
  | nil => intro r u _ e he; exact absurd he (List.not_mem_nil e)
  | cons e0 es ih =>
    intro r u h e he
    cases hs : load_enrollment_step r u e0 with
    | mk r1 err =>
      cases err with
      | some m =>
        rw [load_enrollments_cons_some r r1 u m e0 es hs] at h
        exact Option.noConfusion h
      | none =>
        rw [load_enrollments_cons_none r r1 u e0 es hs] at h ⊢
        obtain ⟨hd, ho⟩ := load_enrollment_step_ok_facts r u e0 r1 hs
        rcases List.mem_cons.mp he with he0 | hee
        · subst he0
          obtain ⟨_, _, hsub⟩ := load_enrollments_preserves es r1 u
          exact ⟨hd, hsub _ ho⟩
        · exact ih r1 u h e hee

/-- Unfolding equation for `load` on a nonempty candidate list. -/
theorem load_cons (r : Registry) (c : CandidateIndividual)
    (rest : List CandidateIndividual) :
    load r (c :: rest) =
      (match (if pyFalsy (load_identities r c.identities).uuid then none
              else (load_identities r c.identities).uuid) with
       | some u =>
         (match load_enrollments (load_identities r c.identities).reg c.enrollments u with
          | (r2, none) =>
            ⟨(load r2 rest).reg,
              (load_identities r c.identities).nidentities + (load r2 rest).total,
              (load r2 rest).error,
              (load_identities r c.identities).merges ++ (load r2 rest).merges⟩
          | (r2, some m) => ⟨r2, 0, some m, (load_identities r c.identities).merges⟩)
       | none =>
         ⟨(load (load_identities r c.identities).reg rest).reg,
           (load_identities r c.identities).nidentities +
             (load (load_identities r c.identities).reg rest).total,
           (load (load_identities r c.identities).reg rest).error,
           (load_identities r c.identities).merges ++
             (load (load_identities r c.identities).reg rest).merges⟩) := rfl

/-- `GoodReg` depends only on the individual and identity tables. -/
theorem goodreg_of_eq (r r2 : Registry) (h1 : r2.individuals = r.individuals)
    (h2 : r2.identities = r.identities) (hg : GoodReg r) : GoodReg r2 := by
  unfold GoodReg
  rw [h1, h2]
  exact hg

/-- Membership in the valid fingerprints of a candidate sequence, unfolded. -/
theorem mem_allValidFps_cons (fp : String) (c : CandidateIndividual)
    (rest : List CandidateIndividual) :
    fp ∈ allValidFps (c :: rest) ↔
      fp ∈ validFps c.identities ∨ fp ∈ allValidFps rest := by
  simp [allValidFps]

/-- A truthy working uuid is a set, nonempty uuid. -/
theorem truthy_uuid (st : LoadState) (u : String)
    (hub : (if pyFalsy st.uuid then none else st.uuid) = some u) :
    st.uuid = some u ∧ u ≠ "" := by
  by_cases hf : pyFalsy st.uuid
  · rw [if_pos hf] at hub
    exact Option.noConfusion hub
  · rw [if_neg hf] at hub
    refine ⟨hub, ?_⟩
    rw [hub] at hf
    simpa [pyFalsy] using hf

/-- Under `UuidOk`, a falsy working uuid is an unset one. -/
theorem falsy_uuid_none (st : LoadState) (hust : UuidOk st)
    (hub : (if pyFalsy st.uuid then none else st.uuid) = none) : st.uuid = none := by
  by_cases hf : pyFalsy st.uuid
  · rcases hust with h | ⟨u, h, hne⟩
    · exact h
    · rw [h] at hf
      simp only [pyFalsy] at hf
      exact absurd (eq_of_beq hf) hne
  · rw [if_neg hf] at hub
    exact hub

/-- Unfolding equation: candidate with a truthy uuid and a clean enrollment
phase. -/
theorem load_cons_some (r : Registry) (c : CandidateIndividual)
    (rest : List CandidateIndividual) (u : String) (r2 : Registry)
    (hub : (if pyFalsy (load_identities r c.identities).uuid then none
            else (load_identities r c.identities).uuid) = some u)
    (hle : load_enrollments (load_identities r c.identities).reg c.enrollments u =
        (r2, none)) :
    load r (c :: rest) =
      ⟨(load r2 rest).reg,
        (load_identities r c.identities).nidentities + (load r2 rest).total,
        (load r2 rest).error,
        (load_identities r c.identities).merges ++ (load r2 rest).merges⟩ := by
  rw [load_cons, hub]
  show (match load_enrollments (load_identities r c.identities).reg c.enrollments u with
        | (r2, none) =>
          (⟨(load r2 rest).reg,
            (load_identities r c.identities).nidentities + (load r2 rest).total,
            (load r2 rest).error,
            (load_identities r c.identities).merges ++ (load r2 rest).merges⟩ : LoadResult)
        | (r2, some m) => ⟨r2, 0, some m, (load_identities r c.identities).merges⟩) = _
  rw [hle]

/-- Unfolding equation: candidate with a truthy uuid whose enrollment phase
raises. -/
theorem load_cons_some_err (r : Registry) (c : CandidateIndividual)
    (rest : List CandidateIndividual) (u m : String) (r2 : Registry)
    (hub : (if pyFalsy (load_identities r c.identities).uuid then none
            else (load_identities r c.identities).uuid) = some u)
    (hle : load_enrollments (load_identities r c.identities).reg c.enrollments u =
        (r2, some m)) :
    load r (c :: rest) = ⟨r2, 0, some m, (load_identities r c.identities).merges⟩ := by
  rw [load_cons, hub]
  show (match load_enrollments (load_identities r c.identities).reg c.enrollments u with
        | (r2, none) =>
          (⟨(load r2 rest).reg,
            (load_identities r c.identities).nidentities + (load r2 rest).total,
            (load r2 rest).error,
            (load_identities r c.identities).merges ++ (load r2 rest).merges⟩ : LoadResult)
        | (r2, some m) => ⟨r2, 0, some m, (load_identities r c.identities).merges⟩) = _
  rw [hle]

/-- Unfolding equation: candidate with a falsy uuid (enrollments skipped). -/
theorem load_cons_none (r : Registry) (c : CandidateIndividual)
    (rest : List CandidateIndividual)
    (hub : (if pyFalsy (load_identities r c.identities).uuid then none
            else (load_identities r c.identities).uuid) = none) :
    load r (c :: rest) =
      ⟨(load (load_identities r c.identities).reg rest).reg,
        (load_identities r c.identities).nidentities +
          (load (load_identities r c.identities).reg rest).total,
        (load (load_identities r c.identities).reg rest).error,
        (load_identities r c.identities).merges ++
          (load (load_identities r c.identities).reg rest).merges⟩ := by
  rw [load_cons, hub]

/-- Run-1 master lemma: a clean `load` from a good registry keeps the
registry good, its fingerprint keys are the initial ones plus all valid
fingerprints of the batch, the identity table grows by exactly the returned
total, and organizations only accumulate. -/
theorem run1_load (cands : List CandidateIndividual) : ∀ r : Registry,
    GoodReg r → (load r cands).error = none →
    GoodReg (load r cands).reg ∧
    (∀ fp, fp ∈ (load r cands).reg.identities.map Prod.fst ↔
      fp ∈ r.identities.map Prod.fst ∨ fp ∈ allValidFps cands) ∧
    ((load r cands).reg.identities.length = r.identities.length + (load r cands).total) ∧
    (∀ x ∈ r.organizations, x ∈ (load r cands).reg.organizations) := by
  induction cands with
  | nil =>
    intro r hg _
    refine ⟨hg, fun fp => ?_, ?_, fun x h => h⟩
    · show fp ∈ r.identities.map Prod.fst ↔ _
      simp [allValidFps]
    · show r.identities.length = r.identities.length + 0
      omega
  | cons c rest ih =>
    intro r hg herr
    have hgst : GoodReg (load_identities r c.identities).reg :=
      (fold_basic c.identities ⟨r, none, 0, []⟩ hg (Or.inl rfl)).1
    have hust : UuidOk (load_identities r c.identities) :=
      (fold_basic c.identities ⟨r, none, 0, []⟩ hg (Or.inl rfl)).2.1
    have host : (load_identities r c.identities).reg.organizations = r.organizations :=
      (fold_basic c.identities ⟨r, none, 0, []⟩ hg (Or.inl rfl)).2.2.1
    have hiffst : ∀ fp, fp ∈ (load_identities r c.identities).reg.identities.map Prod.fst ↔
        fp ∈ r.identities.map Prod.fst ∨ fp ∈ validFps c.identities :=
      (fold_keys_count c.identities ⟨r, none, 0, []⟩ hg.2.2).2.1
    have hlenst : (load_identities r c.identities).reg.identities.length + 0 =
        r.identities.length + (load_identities r c.identities).nidentities :=
      (fold_keys_count c.identities ⟨r, none, 0, []⟩ hg.2.2).2.2
    cases hub : (if pyFalsy (load_identities r c.identities).uuid then none
                 else (load_identities r c.identities).uuid) with
    | none =>
      have huuidnone : (load_identities r c.identities).uuid = none :=
        falsy_uuid_none _ hust hub
      have hstinit : load_identities r c.identities = ⟨r, none, 0, []⟩ :=
        foldl_step_uuid_none c.identities ⟨r, none, 0, []⟩ huuidnone
      have heq := load_cons_none r c rest hub
      rw [hstinit] at heq
      have herr2 : (load r rest).error = none := by
        rw [heq] at herr
        exact herr
      obtain ⟨ihg, ihiff, ihlen, ihorg⟩ := ih r hg herr2
      have habsorb : ∀ fp, fp ∈ validFps c.identities → fp ∈ r.identities.map Prod.fst := by
        intro fp hfp
        have h1 := (hiffst fp).mpr (Or.inr hfp)
        rw [hstinit] at h1
        exact h1
      rw [heq]
      refine ⟨ihg, ?_, ?_, ihorg⟩
      · intro fp
        rw [mem_allValidFps_cons]
        show fp ∈ (load r rest).reg.identities.map Prod.fst ↔ _
        rw [ihiff fp]
        constructor
        · rintro (h | h)
          · exact Or.inl h
          · exact Or.inr (Or.inr h)
        · rintro (h | h | h)
          · exact Or.inl h
          · exact Or.inl (habsorb fp h)
          · exact Or.inr h
      · show (load r rest).reg.identities.length =
          r.identities.length + (0 + (load r rest).total)
        omega
    | some u =>
      cases hle : load_enrollments (load_identities r c.identities).reg
          c.enrollments u with
      | mk r2 errE =>
        cases errE with
        | some m =>
          have heq := load_cons_some_err r c rest u m r2 hub hle
          rw [heq] at herr
          exact Option.noConfusion herr
        | none =>
          have heq := load_cons_some r c rest u r2 hub hle
          have herr2 : (load r2 rest).error = none := by
            rw [heq] at herr
            exact herr
          have hle_pre := load_enrollments_preserves c.enrollments
            (load_identities r c.identities).reg u
          rw [hle] at hle_pre
          obtain ⟨hle_ind, hle_id, hle_org⟩ := hle_pre
          have hgr2 : GoodReg r2 := goodreg_of_eq _ _ hle_ind hle_id hgst
          obtain ⟨ihg, ihiff, ihlen, ihorg⟩ := ih r2 hgr2 herr2
          have hkeq : r2.identities.map Prod.fst =
              (load_identities r c.identities).reg.identities.map Prod.fst :=
            congrArg (List.map Prod.fst) hle_id
          have hleq : r2.identities.length =
              (load_identities r c.identities).reg.identities.length :=
            congrArg List.length hle_id
          rw [heq]
          refine ⟨ihg, ?_, ?_, ?_⟩
          · intro fp
            rw [mem_allValidFps_cons]
            show fp ∈ (load r2 rest).reg.identities.map Prod.fst ↔ _
            rw [ihiff fp, hkeq, hiffst fp]
            tauto
          · show (load r2 rest).reg.identities.length =
              r.identities.length +
                ((load_identities r c.identities).nidentities + (load r2 rest).total)
            omega
          · intro x hx
            show x ∈ (load r2 rest).reg.organizations
            apply ihorg
            apply hle_org
            rw [host]
            exact hx

/-- Load-level owner substitution: ownership recorded before a batch is
rewritten uniformly, so co-owned fingerprints stay co-owned. -/
theorem load_owner_subst (cands : List CandidateIndividual) : ∀ r : Registry,
    ∃ g : String → String,
      ∀ fp m, r.identities.lookup fp = some m →
        (load r cands).reg.identities.lookup fp = some (g m) := by
  induction cands with
  | nil => intro r; exact ⟨fun m => m, fun fp m h => h⟩
  | cons c rest ih =>
    intro r
    obtain ⟨g1, hg1⟩ := fold_owner_subst c.identities ⟨r, none, 0, []⟩
    cases hub : (if pyFalsy (load_identities r c.identities).uuid then none
                 else (load_identities r c.identities).uuid) with
    | none =>
      obtain ⟨g2, hg2⟩ := ih (load_identities r c.identities).reg
      refine ⟨fun m => g2 (g1 m), fun fp m h => ?_⟩
      rw [load_cons_none r c rest hub]
      exact hg2 fp (g1 m) (hg1 fp m h)
    | some u =>
      cases hle : load_enrollments (load_identities r c.identities).reg
          c.enrollments u with
      | mk r2 errE =>
        have hle_pre := load_enrollments_preserves c.enrollments
          (load_identities r c.identities).reg u
        rw [hle] at hle_pre
        obtain ⟨_, hle_id, _⟩ := hle_pre
        have hle_id2 : r2.identities =
            (load_identities r c.identities).reg.identities := hle_id
        cases errE with
        | none =>
          obtain ⟨g2, hg2⟩ := ih r2
          refine ⟨fun m => g2 (g1 m), fun fp m h => ?_⟩
          rw [load_cons_some r c rest u r2 hub hle]
          apply hg2
          show List.lookup fp r2.identities = _
          rw [hle_id2]
          exact hg1 fp m h
        | some m0 =>
          refine ⟨g1, fun fp m h => ?_⟩
          rw [load_cons_some_err r c rest u m0 r2 hub hle]
          show r2.identities.lookup fp = _
          rw [hle_id2]
          exact hg1 fp m h

/-- Run-1 cohesion: after a clean batch, the valid fingerprints of each
candidate share one (nonempty) owner. -/
theorem run1_cohesion (cands : List CandidateIndividual) : ∀ r : Registry,
    GoodReg r → (load r cands).error = none →
    ∀ c ∈ cands,
      (∀ j ∈ c.identities, validFp j = none) ∨
      (∃ m, m ≠ "" ∧ ∀ j ∈ c.identities, ∀ fp, validFp j = some fp →
        (load r cands).reg.identities.lookup fp = some m) := by
  induction cands with
  | nil => intro r _ _ c hc; exact absurd hc (List.not_mem_nil c)
  | cons c0 rest ih =>
    intro r hg herr c hc
    have hgst : GoodReg (load_identities r c0.identities).reg :=
      (fold_basic c0.identities ⟨r, none, 0, []⟩ hg (Or.inl rfl)).1
    have hust : UuidOk (load_identities r c0.identities) :=
      (fold_basic c0.identities ⟨r, none, 0, []⟩ hg (Or.inl rfl)).2.1
    cases hub : (if pyFalsy (load_identities r c0.identities).uuid then none
                 else (load_identities r c0.identities).uuid) with
    | none =>
      have huuidnone : (load_identities r c0.identities).uuid = none :=
        falsy_uuid_none _ hust hub
      have hstinit : load_identities r c0.identities = ⟨r, none, 0, []⟩ :=
        foldl_step_uuid_none c0.identities ⟨r, none, 0, []⟩ huuidnone
      have heq := load_cons_none r c0 rest hub
      rw [hstinit] at heq
      have herr2 : (load r rest).error = none := by
        rw [heq] at herr
        exact herr
      rcases List.mem_cons.mp hc with hcc | hcc
      · subst hcc
        left
        intro j hj
        by_contra hvj
        obtain ⟨fp, hfp⟩ := Option.ne_none_iff_exists'.mp hvj
        obtain ⟨u', hu', _, _⟩ :=
          fold_processed_owned c.identities ⟨r, none, 0, []⟩ hg (Or.inl rfl) j hj fp hfp
        rw [show (c.identities.foldl load_identity_step ⟨r, none, 0, []⟩) =
            load_identities r c.identities from rfl, huuidnone] at hu'
        exact Option.noConfusion hu'
      · rcases ih r hg herr2 c hcc with h | ⟨m, hm, hall⟩
        · exact Or.inl h
        · refine Or.inr ⟨m, hm, fun j hj fp hfp => ?_⟩
          rw [heq]
          exact hall j hj fp hfp
    | some u =>
      cases hle : load_enrollments (load_identities r c0.identities).reg
          c0.enrollments u with
      | mk r2 errE =>
        cases errE with
        | some m0 =>
          have heq := load_cons_some_err r c0 rest u m0 r2 hub hle
          rw [heq] at herr
          exact Option.noConfusion herr
        | none =>
          have heq := load_cons_some r c0 rest u r2 hub hle
          have herr2 : (load r2 rest).error = none := by
            rw [heq] at herr
            exact herr
          have hle_pre := load_enrollments_preserves c0.enrollments
            (load_identities r c0.identities).reg u
          rw [hle] at hle_pre
          obtain ⟨hle_ind, hle_id, _⟩ := hle_pre
          have hle_id2 : r2.identities = (load_identities r c0.identities).reg.identities :=
            hle_id
          have hgr2 : GoodReg r2 := goodreg_of_eq _ _ hle_ind hle_id hgst
          rcases List.mem_cons.mp hc with hcc | hcc
          · subst hcc
            by_cases hall : ∀ j ∈ c.identities, validFp j = none
            · exact Or.inl hall
            · right
              push_neg at hall
              obtain ⟨j0, hj0, hvj0⟩ := hall
              obtain ⟨fp0, hfp0⟩ := Option.ne_none_iff_exists'.mp hvj0
              obtain ⟨u0, hu0, hu0ne, _⟩ :=
                fold_processed_owned c.identities ⟨r, none, 0, []⟩ hg (Or.inl rfl)
                  j0 hj0 fp0 hfp0
              obtain ⟨g2, hg2⟩ := load_owner_subst rest r2
              refine ⟨g2 u0, ?_, fun j hj fp hfp => ?_⟩
              · intro hge
                have hgood := (run1_load (c :: rest) r hg herr).1
                -- the owner of fp0 in the final registry is g2 u0
                obtain ⟨u1, hu1, hu1ne, hown1⟩ :=
                  fold_processed_owned c.identities ⟨r, none, 0, []⟩ hg (Or.inl rfl)
                    j0 hj0 fp0 hfp0
                have : u1 = u0 := by
                  rw [hu0] at hu1
                  injection hu1 with h1
                  exact h1.symm
                rw [this] at hown1
                have hfin : (load r (c :: rest)).reg.identities.lookup fp0 =
                    some (g2 u0) := by
                  rw [heq]
                  apply hg2
                  rw [hle_id2]
                  exact hown1
                have := hgood.2.1 _ (lookup_mem hfin)
                exact this hge
              · obtain ⟨u1, hu1, _, hown1⟩ :=
                  fold_processed_owned c.identities ⟨r, none, 0, []⟩ hg (Or.inl rfl)
                    j hj fp hfp
                have : u1 = u0 := by
                  rw [hu0] at hu1
                  injection hu1 with h1
                  exact h1.symm
                rw [this] at hown1
                rw [heq]
                apply hg2
                rw [hle_id2]
                exact hown1
          · rcases ih r2 hgr2 herr2 c hcc with h | ⟨m, hm, hall⟩
            · exact Or.inl h
            · refine Or.inr ⟨m, hm, fun j hj fp hfp => ?_⟩
              rw [heq]
              exact hall j hj fp hfp

/-- Run-1 enrollment facts: after a clean batch, every enrollment claim of a
candidate that had a valid identity has a valid clamped period and its
organization present in the final registry. -/
theorem run1_enroll_facts (cands : List CandidateIndividual) : ∀ r : Registry,
    GoodReg r → (load r cands).error = none →
    ∀ c ∈ cands, (∃ j ∈ c.identities, ∃ fp, validFp j = some fp) →
      ∀ e ∈ c.enrollments,
        max MIN_PERIOD_DATE e.start ≤ min MAX_PERIOD_DATE e.end_ ∧
        e.organization ∈ (load r cands).reg.organizations := by
  induction cands with
  | nil => intro r _ _ c hc; exact absurd hc (List.not_mem_nil c)
  | cons c0 rest ih =>
    intro r hg herr c hc hval e he
    have hgst : GoodReg (load_identities r c0.identities).reg :=
      (fold_basic c0.identities ⟨r, none, 0, []⟩ hg (Or.inl rfl)).1
    have hust : UuidOk (load_identities r c0.identities) :=
      (fold_basic c0.identities ⟨r, none, 0, []⟩ hg (Or.inl rfl)).2.1
    cases hub : (if pyFalsy (load_identities r c0.identities).uuid then none
                 else (load_identities r c0.identities).uuid) with
    | none =>
      have huuidnone : (load_identities r c0.identities).uuid = none :=
        falsy_uuid_none _ hust hub
      have hstinit : load_identities r c0.identities = ⟨r, none, 0, []⟩ :=
        foldl_step_uuid_none c0.identities ⟨r, none, 0, []⟩ huuidnone
      have heq := load_cons_none r c0 rest hub
      rw [hstinit] at heq
      have herr2 : (load r rest).error = none := by
        rw [heq] at herr
        exact herr
      rcases List.mem_cons.mp hc with hcc | hcc
      · subst hcc
        obtain ⟨j0, hj0, fp0, hfp0⟩ := hval
        obtain ⟨u', hu', _, _⟩ :=
          fold_processed_owned c.identities ⟨r, none, 0, []⟩ hg (Or.inl rfl) j0 hj0 fp0 hfp0
        rw [show (c.identities.foldl load_identity_step
            (⟨r, none, 0, []⟩ : LoadState)) = load_identities r c.identities from rfl,
          huuidnone] at hu'
        exact Option.noConfusion hu'
      · have hrec := ih r hg herr2 c hcc hval e he
        rw [heq]
        exact hrec
    | some u =>
      cases hle : load_enrollments (load_identities r c0.identities).reg
          c0.enrollments u with
      | mk r2 errE =>
        cases errE with
        | some m0 =>
          have heq := load_cons_some_err r c0 rest u m0 r2 hub hle
          rw [heq] at herr
          exact Option.noConfusion herr
        | none =>
          have heq := load_cons_some r c0 rest u r2 hub hle
          have herr2 : (load r2 rest).error = none := by
            rw [heq] at herr
            exact herr
          have hle_pre := load_enrollments_preserves c0.enrollments
            (load_identities r c0.identities).reg u
          rw [hle] at hle_pre
          obtain ⟨hle_ind, hle_id, _⟩ := hle_pre
          have hgr2 : GoodReg r2 := goodreg_of_eq _ _ hle_ind hle_id hgst
          rcases List.mem_cons.mp hc with hcc | hcc
          · subst hcc
            have hok : (load_enrollments (load_identities r c.identities).reg
                c.enrollments u).2 = none := by
              rw [hle]
            have hfacts := load_enrollments_ok_facts c.enrollments
              (load_identities r c.identities).reg u hok e he
            obtain ⟨hd, ho⟩ := hfacts
            refine ⟨hd, ?_⟩
            have ho2 : e.organization ∈ r2.organizations := by
              rw [hle] at ho
              exact ho
            have hmono := (run1_load rest r2 hgr2 herr2).2.2.2
            rw [heq]
            exact hmono _ ho2
          · have hrec := ih r2 hgr2 herr2 c hcc hval e he
            rw [heq]
            exact hrec

/-- A second-run reconciliation step from a working uuid that already owns
every valid fingerprint it will meet is a perfect no-op. -/
theorem run2_fold_some (ids : List RawIdentity) : ∀ (r : Registry) (m : String)
    (n : Nat) (ms : List (List String × String)), m ≠ "" →
    (∀ j ∈ ids, ∀ fp, validFp j = some fp → r.identities.lookup fp = some m) →
    ids.foldl load_identity_step ⟨r, some m, n, ms⟩ = ⟨r, some m, n, ms⟩ := by
  induction ids with
  | nil => intro r m n ms _ _; rfl
  | cons i ids ih =>
    intro r m n ms hm hh
    rw [List.foldl_cons]
    have hstep : load_identity_step ⟨r, some m, n, ms⟩ i = ⟨r, some m, n, ms⟩ := by
      rcases load_identity_step_cases ⟨r, some m, n, ms⟩ i with
        ⟨_, hstep⟩ | ⟨fp, hfp, hl, hfalsy, _⟩ | ⟨fp, u, hfp, hl, _, _, _⟩ |
        ⟨fp, s, hfp, hl, hdisj, hstep⟩ | ⟨fp, s, u, hfp, hl, hu, _, hus, _, _⟩ |
        ⟨fp, s, u, hfp, hl, hu, _, hus, _, _⟩
      · exact hstep
      · simp only [pyFalsy] at hfalsy
        exact absurd (eq_of_beq hfalsy) hm
      · have hv : validFp i = some fp := by unfold validFp; rw [hfp]; rfl
        rw [hh i (List.mem_cons_self i ids) fp hv] at hl
        exact Option.noConfusion hl
      · have hv : validFp i = some fp := by unfold validFp; rw [hfp]; rfl
        have hsm : s = m := by
          rw [hh i (List.mem_cons_self i ids) fp hv] at hl
          injection hl with h1
          exact h1.symm
        rcases hdisj with hfalsy | hsome
        · simp only [pyFalsy] at hfalsy
          exact absurd (eq_of_beq hfalsy) hm
        · rw [hstep, hsm]
      · have hv : validFp i = some fp := by unfold validFp; rw [hfp]; rfl
        have hsm : s = m := by
          rw [hh i (List.mem_cons_self i ids) fp hv] at hl
          injection hl with h1
          exact h1.symm
        have hum : u = m := by
          have : (some m : Option String) = some u := hu
          injection this with h1
          exact h1.symm
        exact absurd (hum.trans hsm.symm) hus
      · have hv : validFp i = some fp := by unfold validFp; rw [hfp]; rfl
        have hsm : s = m := by
          rw [hh i (List.mem_cons_self i ids) fp hv] at hl
          injection hl with h1
          exact h1.symm
        have hum : u = m := by
          have : (some m : Option String) = some u := hu
          injection this with h1
          exact h1.symm
        exact absurd (hum.trans hsm.symm) hus
    rw [hstep]
    exact ih r m n ms hm (fun j hj fp hfp => hh j (List.mem_cons_of_mem i hj) fp hfp)

/-- A second-run candidate whose valid fingerprints all have the common
owner `m` is a no-op: it adopts `m` and creates nothing, or it has no valid
identity at all. -/
theorem run2_fold_start (ids : List RawIdentity) : ∀ (r : Registry) (m : String),
    m ≠ "" →
    (∀ j ∈ ids, ∀ fp, validFp j = some fp → r.identities.lookup fp = some m) →
    ((load_identities r ids = ⟨r, some m, 0, []⟩ ∧
        ∃ j ∈ ids, ∃ fp, validFp j = some fp) ∨
     (load_identities r ids = ⟨r, none, 0, []⟩ ∧ ∀ j ∈ ids, validFp j = none)) := by
  induction ids with
  | nil =>
    intro r m _ _
    right
    exact ⟨rfl, fun j hj => absurd hj (List.not_mem_nil j)⟩
  | cons i ids ih =>
    intro r m hm hh
    cases hv : validFp i with
    | none =>
      have hstep : load_identity_step ⟨r, none, 0, []⟩ i = ⟨r, none, 0, []⟩ := by
        rcases load_identity_step_cases ⟨r, none, 0, []⟩ i with
          ⟨_, hstep⟩ | ⟨fp, hfp, _, _, _⟩ | ⟨fp, u, hfp, _, _, _, _⟩ |
          ⟨fp, s, hfp, _, _, _⟩ | ⟨fp, s, u, hfp, _, _, _, _, _, _⟩ |
          ⟨fp, s, u, hfp, _, _, _, _, _, _⟩
        · exact hstep
        all_goals
          unfold validFp at hv
          rw [hfp] at hv
          exact Option.noConfusion hv
      have hrw : load_identities r (i :: ids) = load_identities r ids := by
        show (i :: ids).foldl load_identity_step ⟨r, none, 0, []⟩ = _
        rw [List.foldl_cons, hstep]
        rfl
      rw [hrw]
      rcases ih r m hm (fun j hj fp hfp => hh j (List.mem_cons_of_mem i hj) fp hfp) with
        ⟨h1, j0, hj0, hfp0⟩ | ⟨h1, h2⟩
      · exact Or.inl ⟨h1, j0, List.mem_cons_of_mem i hj0, hfp0⟩
      · refine Or.inr ⟨h1, fun j hj => ?_⟩
        rcases List.mem_cons.mp hj with hji | hji
        · rw [hji]; exact hv
        · exact h2 j hji
    | some fp =>
      have hlm : r.identities.lookup fp = some m := hh i (List.mem_cons_self i ids) fp hv
      have hstep : load_identity_step ⟨r, none, 0, []⟩ i = ⟨r, some m, 0, []⟩ := by
        rcases load_identity_step_cases ⟨r, none, 0, []⟩ i with
          ⟨hinv, _⟩ | ⟨fp0, hfp0, hl, _, _⟩ | ⟨fp0, u, hfp0, hl, hu0, _, _⟩ |
          ⟨fp0, s, hfp0, hl, _, hstep⟩ | ⟨fp0, s, u, hfp0, hl, hu0, hfalsy, _, _, _⟩ |
          ⟨fp0, s, u, hfp0, hl, hu0, hfalsy, _, _, _⟩
        · unfold validFp at hv
          rw [hinv] at hv
          exact Option.noConfusion hv
        · have : fp0 = fp := by
            unfold validFp at hv
            rw [hfp0] at hv
            injection hv
          rw [this, hlm] at hl
          exact Option.noConfusion hl
        · exact Option.noConfusion hu0
        · have hfpe : fp0 = fp := by
            unfold validFp at hv
            rw [hfp0] at hv
            injection hv
          have hsm : s = m := by
            rw [hfpe, hlm] at hl
            injection hl with h1
            exact h1.symm
          rw [hstep, hsm]
        · exact Option.noConfusion hu0
        · exact Option.noConfusion hu0
      have hrw : load_identities r (i :: ids) =
          ids.foldl load_identity_step ⟨r, some m, 0, []⟩ := by
        show (i :: ids).foldl load_identity_step ⟨r, none, 0, []⟩ = _
        rw [List.foldl_cons, hstep]
      rw [hrw, run2_fold_some ids r m 0 [] hm
        (fun j hj fp2 hfp2 => hh j (List.mem_cons_of_mem i hj) fp2 hfp2)]
      exact Or.inl ⟨rfl, i, List.mem_cons_self i ids, fp, hv⟩

/-- With a valid period and a known group, `enroll` either succeeds or
reports a duplicate. -/
theorem enroll_no_invalid (r : Registry) (u g : String) (f t : Int)
    (hd : f ≤ t) (ho : g ∈ r.organizations) :
    (∃ r2, enroll r u g f t = .ok r2) ∨ enroll r u g f t = .error .alreadyExists := by
  unfold enroll
  have h1 : ¬(t < f) := by omega
  rw [if_neg h1]
  have h2 : (!r.organizations.contains g) = false := by simp [ho]
  rw [h2]
  simp only [Bool.false_eq_true, if_false]
  by_cases h3 : (⟨u, g, f, t⟩ : Enrollment) ∈ r.enrollments
  · right; simp [h3]
  · left
    exact ⟨{ r with enrollments := ⟨u, g, f, t⟩ :: r.enrollments }, by simp [h3]⟩

/-- A second-run enrollment phase over claims whose organizations already
exist and whose clamped periods are valid never raises, and touches only
the enrollment table. -/
theorem run2_enrollments (es : List EnrollmentClaim) : ∀ (r : Registry) (u : String),
    (∀ e ∈ es, e.organization ∈ r.organizations ∧
      max MIN_PERIOD_DATE e.start ≤ min MAX_PERIOD_DATE e.end_) →
    (load_enrollments r es u).2 = none ∧
    (load_enrollments r es u).1.individuals = r.individuals ∧
    (load_enrollments r es u).1.identities = r.identities ∧
    (load_enrollments r es u).1.organizations = r.organizations := by
  induction es with
  | nil => intro r u _; exact ⟨rfl, rfl, rfl, rfl⟩
  | cons e es ih =>
    intro r u hh
    obtain ⟨horg, hdate⟩ := hh e (List.mem_cons_self e es)
    have hpass : add_organization_pass r e.organization = r := by
      simp [add_organization_pass, add_organization, horg]
    rcases enroll_no_invalid r u e.organization (max MIN_PERIOD_DATE e.start)
        (min MAX_PERIOD_DATE e.end_) hdate horg with ⟨r2, henr⟩ | henr
    · have hstep : load_enrollment_step r u e = (r2, none) := by
        rw [load_enrollment_step_eq, hpass, henr]
      obtain ⟨hr2eq, _, _⟩ := enroll_ok _ _ _ _ _ _ henr
      rw [load_enrollments_cons_none r r2 u e es hstep]
      have hr2ind : r2.individuals = r.individuals := by rw [hr2eq]
      have hr2id : r2.identities = r.identities := by rw [hr2eq]
      have hr2org : r2.organizations = r.organizations := by rw [hr2eq]
      have hh2 : ∀ e2 ∈ es, e2.organization ∈ r2.organizations ∧
          max MIN_PERIOD_DATE e2.start ≤ min MAX_PERIOD_DATE e2.end_ := by
        intro e2 he2
        obtain ⟨a, b⟩ := hh e2 (List.mem_cons_of_mem e he2)
        exact ⟨by rw [hr2org]; exact a, b⟩
      obtain ⟨q1, q2, q3, q4⟩ := ih r2 u hh2
      exact ⟨q1, q2.trans hr2ind, q3.trans hr2id, q4.trans hr2org⟩
    · have hstep : load_enrollment_step r u e = (r, none) := by
        rw [load_enrollment_step_eq, hpass, henr]
      rw [load_enrollments_cons_none r r u e es hstep]
      exact ih r u (fun e2 he2 => hh e2 (List.mem_cons_of_mem e he2))

/-- Run-2 master lemma: re-importing a batch whose candidates' valid
fingerprints are co-owned in `R1` and whose enrollment claims were already
prepared never raises, creates no identity, and leaves individuals,
identities and organizations untouched. -/
theorem run2_load (cands : List CandidateIndividual) : ∀ r R1 : Registry,
    r.individuals = R1.individuals → r.identities = R1.identities →
    r.organizations = R1.organizations →
    (∀ c ∈ cands,
      (∀ j ∈ c.identities, validFp j = none) ∨
      (∃ m, m ≠ "" ∧ ∀ j ∈ c.identities, ∀ fp, validFp j = some fp →
        R1.identities.lookup fp = some m)) →
    (∀ c ∈ cands, (∃ j ∈ c.identities, ∃ fp, validFp j = some fp) →
      ∀ e ∈ c.enrollments, e.organization ∈ R1.organizations ∧
        max MIN_PERIOD_DATE e.start ≤ min MAX_PERIOD_DATE e.end_) →
    (load r cands).error = none ∧ (load r cands).total = 0 ∧
    (load r cands).reg.individuals = R1.individuals ∧
    (load r cands).reg.identities = R1.identities ∧
    (load r cands).reg.organizations = R1.organizations := by
  induction cands with
  | nil => intro r R1 h1 h2 h3 _ _; exact ⟨rfl, rfl, h1, h2, h3⟩
  | cons c rest ih =>
    intro r R1 h1 h2 h3 hcoh henr
    have hnone_case : (load_identities r c.identities = ⟨r, none, 0, []⟩) →
        (load r (c :: rest)).error = none ∧ (load r (c :: rest)).total = 0 ∧
        (load r (c :: rest)).reg.individuals = R1.individuals ∧
        (load r (c :: rest)).reg.identities = R1.identities ∧
        (load r (c :: rest)).reg.organizations = R1.organizations := by
      intro hld
      have hub : (if pyFalsy (load_identities r c.identities).uuid then none
                  else (load_identities r c.identities).uuid) = none := by
        rw [hld]
        rfl
      have heq := load_cons_none r c rest hub
      rw [hld] at heq
      obtain ⟨q1, q2, q3, q4, q5⟩ := ih r R1 h1 h2 h3
        (fun c2 hc2 => hcoh c2 (List.mem_cons_of_mem c hc2))
        (fun c2 hc2 => henr c2 (List.mem_cons_of_mem c hc2))
      rw [heq]
      refine ⟨q1, ?_, q3, q4, q5⟩
      show 0 + (load r rest).total = 0
      omega
    rcases hcoh c (List.mem_cons_self c rest) with hinv | ⟨m, hm, hown⟩
    · have hne : ("x" : String) ≠ "" := by decide
      rcases run2_fold_start c.identities r "x" hne
          (fun j hj fp hfp => absurd hfp (by rw [hinv j hj]; exact Option.noConfusion)) with
        ⟨_, j0, hj0, fp0, hfp0⟩ | ⟨hld, _⟩
      · rw [hinv j0 hj0] at hfp0
        exact Option.noConfusion hfp0
      · exact hnone_case hld
    · have hown2 : ∀ j ∈ c.identities, ∀ fp, validFp j = some fp →
          r.identities.lookup fp = some m := by
        intro j hj fp hfp
        rw [h2]
        exact hown j hj fp hfp
      rcases run2_fold_start c.identities r m hm hown2 with ⟨hld, hex⟩ | ⟨hld, _⟩
      · have hub : (if pyFalsy (load_identities r c.identities).uuid then none
                    else (load_identities r c.identities).uuid) = some m := by
          rw [hld]
          simp [pyFalsy, hm]
        have hefacts := henr c (List.mem_cons_self c rest) hex
        have hefacts2 : ∀ e ∈ c.enrollments, e.organization ∈ r.organizations ∧
            max MIN_PERIOD_DATE e.start ≤ min MAX_PERIOD_DATE e.end_ := by
          intro e he
          obtain ⟨a, b⟩ := hefacts e he
          exact ⟨by rw [h3]; exact a, b⟩
        obtain ⟨q1, q2, q3, q4⟩ := run2_enrollments c.enrollments r m hefacts2
        cases hlep : load_enrollments r c.enrollments m with
        | mk r2 err2 =>
          have herr2none : err2 = none := by
            rw [hlep] at q1
            exact q1
          subst herr2none
          have hle2 : load_enrollments (load_identities r c.identities).reg
              c.enrollments m = (r2, none) := by
            rw [hld]
            exact hlep
          have heq := load_cons_some r c rest m r2 hub hle2
          rw [hlep] at q2 q3 q4
          obtain ⟨w1, w2, w3, w4, w5⟩ := ih r2 R1 (q2.trans h1) (q3.trans h2) (q4.trans h3)
            (fun c2 hc2 => hcoh c2 (List.mem_cons_of_mem c hc2))
            (fun c2 hc2 => henr c2 (List.mem_cons_of_mem c hc2))
          rw [heq, hld]
          refine ⟨w1, ?_, w3, w4, w5⟩
          show 0 + (load r2 rest).total = 0
          omega
      · exact hnone_case hld

/-- C5: importing a candidate sequence into a fresh registry and then
re-importing it: the first run that completes without a `LoadError` creates
exactly one identity per distinct valid fingerprint, and the second run
also completes, creates nothing, and leaves the set of canonical
individuals — the individual table and the identity-ownership table —
unchanged. -/
theorem c5_idempotent_import (cands : List CandidateIndividual)
    (herr : (load emptyRegistry cands).error = none) :
    (load emptyRegistry cands).total = (allValidFps cands).toFinset.card ∧
    (load (load emptyRegistry cands).reg cands).error = none ∧
    (load (load emptyRegistry cands).reg cands).total = 0 ∧
    (load (load emptyRegistry cands).reg cands).reg.individuals =
      (load emptyRegistry cands).reg.individuals ∧
    (load (load emptyRegistry cands).reg cands).reg.identities =
      (load emptyRegistry cands).reg.identities := by
  have hgood : GoodReg emptyRegistry := by
    refine ⟨?_, ?_, ?_⟩ <;> simp [emptyRegistry]
  obtain ⟨hg1, hiff, hlen, _⟩ := run1_load cands emptyRegistry hgood herr
  have htotal : (load emptyRegistry cands).total = (allValidFps cands).toFinset.card := by
    have hkeys : ∀ fp, fp ∈ (load emptyRegistry cands).reg.identities.map Prod.fst ↔
        fp ∈ allValidFps cands := by
      intro fp
      rw [hiff fp]
      simp [emptyRegistry]
    have hfs : ((load emptyRegistry cands).reg.identities.map Prod.fst).toFinset =
        (allValidFps cands).toFinset := by
      ext fp
      simp only [List.mem_toFinset]
      exact hkeys fp
    have hnd : ((load emptyRegistry cands).reg.identities.map Prod.fst).Nodup := hg1.2.2
    have hcard : ((load emptyRegistry cands).reg.identities.map Prod.fst).toFinset.card =
        ((load emptyRegistry cands).reg.identities.map Prod.fst).length :=
      List.toFinset_card_of_nodup hnd
    have hlmap : ((load emptyRegistry cands).reg.identities.map Prod.fst).length =
        (load emptyRegistry cands).reg.identities.length := List.length_map _ _
    have hempty : (emptyRegistry.identities).length = 0 := rfl
    rw [← hfs, hcard, hlmap, hlen, hempty]
    omega
  have hcoh := run1_cohesion cands emptyRegistry hgood herr
  have hefacts := run1_enroll_facts cands emptyRegistry hgood herr
  obtain ⟨w1, w2, w3, w4, _⟩ := run2_load cands (load emptyRegistry cands).reg
    (load emptyRegistry cands).reg rfl rfl rfl hcoh
    (fun c hc hv e he => ⟨(hefacts c hc hv e he).2, (hefacts c hc hv e he).1⟩)
  exact ⟨htotal, w1, w2, w3, w4⟩

/-- Witness for C5: a concrete batch with a duplicate identity (absorbed,
not double-counted), a cross-candidate merge, and an enrollment. -/
theorem c5_idempotent_import_witness :
    (load emptyRegistry [⟨[wit_ia, wit_ia], [⟨"Org", 1850, 2000⟩]⟩, ⟨[wit_ib, wit_ia], []⟩]).error = none ∧
    ((load emptyRegistry [⟨[wit_ia, wit_ia], [⟨"Org", 1850, 2000⟩]⟩, ⟨[wit_ib, wit_ia], []⟩]).total =
      (allValidFps [⟨[wit_ia, wit_ia], [⟨"Org", 1850, 2000⟩]⟩, ⟨[wit_ib, wit_ia], []⟩]).toFinset.card ∧
     (load (load emptyRegistry [⟨[wit_ia, wit_ia], [⟨"Org", 1850, 2000⟩]⟩, ⟨[wit_ib, wit_ia], []⟩]).reg
        [⟨[wit_ia, wit_ia], [⟨"Org", 1850, 2000⟩]⟩, ⟨[wit_ib, wit_ia], []⟩]).error = none ∧
     (load (load emptyRegistry [⟨[wit_ia, wit_ia], [⟨"Org", 1850, 2000⟩]⟩, ⟨[wit_ib, wit_ia], []⟩]).reg
        [⟨[wit_ia, wit_ia], [⟨"Org", 1850, 2000⟩]⟩, ⟨[wit_ib, wit_ia], []⟩]).total = 0 ∧
     (load (load emptyRegistry [⟨[wit_ia, wit_ia], [⟨"Org", 1850, 2000⟩]⟩, ⟨[wit_ib, wit_ia], []⟩]).reg
        [⟨[wit_ia, wit_ia], [⟨"Org", 1850, 2000⟩]⟩, ⟨[wit_ib, wit_ia], []⟩]).reg.individuals =
       (load emptyRegistry [⟨[wit_ia, wit_ia], [⟨"Org", 1850, 2000⟩]⟩, ⟨[wit_ib, wit_ia], []⟩]).reg.individuals ∧
     (load (load emptyRegistry [⟨[wit_ia, wit_ia], [⟨"Org", 1850, 2000⟩]⟩, ⟨[wit_ib, wit_ia], []⟩]).reg
        [⟨[wit_ia, wit_ia], [⟨"Org", 1850, 2000⟩]⟩, ⟨[wit_ib, wit_ia], []⟩]).reg.identities =
       (load emptyRegistry [⟨[wit_ia, wit_ia], [⟨"Org", 1850, 2000⟩]⟩, ⟨[wit_ib, wit_ia], []⟩]).reg.identities) :=
  ⟨by decide,
   c5_idempotent_import
     [⟨[wit_ia, wit_ia], [⟨"Org", 1850, 2000⟩]⟩, ⟨[wit_ib, wit_ia], []⟩] (by decide)⟩

/-- C2 (counterexample): processing `ce2_cand` adopts the locked individual
as the working id and then issues a gateway merge call with that locked
individual among the source canonical ids, merging the locked individual
away — its canonical id is gone from the registry afterwards. -/
theorem c2_locked_merge_counterexample :
    individual_is_locked ce2_reg wit_fpa = true ∧
    (load ce2_reg [ce2_cand]).merges = [([wit_fpa], wit_fpb)] ∧
    (load ce2_reg [ce2_cand]).reg.individuals.lookup wit_fpa = none := by
  refine ⟨by decide, by decide, by decide⟩

/-! ## Claim C2 (amended): locked individuals are never merge targets -/

theorem lookup_of_mem_nodup {β : Type} (l : List (String × β)) (k : String) (v : β)
    (hmem : (k, v) ∈ l) (hnd : (l.map Prod.fst).Nodup) : l.lookup k = some v := by
  induction l with
  | nil => cases hmem
  | cons a l ih =>
    obtain ⟨ka, va⟩ := a
    rcases List.mem_cons.mp hmem with h | h
    · obtain ⟨h1, h2⟩ := Prod.mk.injEq .. ▸ h
      subst h1
      subst h2
      exact lookup_cons_self _ _ _
    · have hk : k ≠ ka := by
        intro he
        subst he
        exact (List.nodup_cons.mp hnd).1 (List.mem_map.mpr ⟨(k, v), h, rfl⟩)
      rw [lookup_cons_ne _ _ _ _ hk]
      exact ih h (List.nodup_cons.mp hnd).2

theorem owner_mem_snd {l : List (String × String)} {fp m : String}
    (h : l.lookup fp = some m) : m ∈ l.map Prod.snd :=
  List.mem_map.mpr ⟨(fp, m), lookup_mem h, rfl⟩

/-- Owners after a merge: either the target, or an owner that was not a
merge source. -/
theorem mem_snd_merge (r : Registry) (fs : List String) (t x : String)
    (hx : x ∈ (merge r fs t).identities.map Prod.snd) :
    x = t ∨ (x ∈ r.identities.map Prod.snd ∧ fs.contains x = false) := by
  rw [merge_identities, List.map_map] at hx
  rcases List.mem_map.mp hx with ⟨p, hp, he⟩
  simp only [Function.comp] at he
  by_cases hc : fs.contains p.2 = true
  · left
    rw [← he, if_pos hc]
  · right
    have hxp : x = p.2 := by
      rw [← he, if_neg hc]
    subst hxp
    refine ⟨List.mem_map.mpr ⟨p, hp, rfl⟩, ?_⟩
    cases hcc : fs.contains p.2 with
    | false => rfl
    | true => exact absurd hcc hc

/-- The lock-safety invariant carried through one candidate's fold, relative
to the initial registry `r0`: individual keys are unique, individual keys
are identity keys, the identity keys of `r0` persist, a truthy working uuid
is a current owner, and each individual locked in `r0` either still has its
locked entry or is no longer an owner at all. -/
def LockInv (r0 : Registry) (st : LoadState) : Prop :=
  (st.reg.individuals.map Prod.fst).Nodup ∧
  (∀ p ∈ st.reg.individuals, p.1 ∈ st.reg.identities.map Prod.fst) ∧
  (∀ k ∈ r0.identities.map Prod.fst, k ∈ st.reg.identities.map Prod.fst) ∧
  (∀ u, st.uuid = some u → u ≠ "" → u ∈ st.reg.identities.map Prod.snd) ∧
  (∀ mk, (mk, true) ∈ r0.individuals →
    ((mk, true) ∈ st.reg.individuals ∨ mk ∉ st.reg.identities.map Prod.snd))

/-- One step preserves the lock-safety invariant, and any merge call it
emits has a target that is not locked in `r0`. -/
theorem lockinv_step (r0 : Registry) (st : LoadState) (i : RawIdentity)
    (hr0sub : ∀ p ∈ r0.individuals, p.1 ∈ r0.identities.map Prod.fst)
    (hinv : LockInv r0 st) :
    LockInv r0 (load_identity_step st i) ∧
    ∀ p ∈ (load_identity_step st i).merges, p ∈ st.merges ∨
      ∀ mk, (mk, true) ∈ r0.individuals → p.2 ≠ mk := by
  obtain ⟨hnd, hsub, hmono, hlive, hla⟩ := hinv
  rcases load_identity_step_cases st i with
    ⟨_, hstep⟩ | ⟨fp, hfp, hl, hfal, hstep⟩ | ⟨fp, u, hfp, hl, hu, hfal, hstep⟩ |
    ⟨fp, s, hfp, hl, hdisj, hstep⟩ | ⟨fp, s, u, hfp, hl, hu, hfal, hus, hlock, hstep⟩ |
    ⟨fp, s, u, hfp, hl, hu, hfal, hus, hlock, hstep⟩
  · rw [hstep]
    exact ⟨⟨hnd, hsub, hmono, hlive, hla⟩, fun p hp => Or.inl hp⟩
  · have hfpid : fp ∉ st.reg.identities.map Prod.fst := (lookup_none_keys _ _).mp hl
    have hfpind : fp ∉ st.reg.individuals.map Prod.fst := by
      intro h
      rcases List.mem_map.mp h with ⟨p, hp, he⟩
      exact hfpid (he ▸ hsub p hp)
    rw [hstep]
    refine ⟨⟨?_, ?_, ?_, ?_, ?_⟩, fun p hp => Or.inl hp⟩
    · simp only [List.map_cons]
      exact List.nodup_cons.mpr ⟨hfpind, hnd⟩
    · intro p hp
      rcases List.mem_cons.mp hp with h | h
      · rw [h]
        exact List.mem_cons_self _ _
      · exact List.mem_cons_of_mem _ (hsub p h)
    · intro k hk
      exact List.mem_cons_of_mem _ (hmono k hk)
    · intro u2 hu2 _
      have : u2 = fp := by injection hu2 with h; exact h.symm
      rw [this]
      show fp ∈ fp :: st.reg.identities.map Prod.snd
      exact List.mem_cons_self _ _
    · intro mk hmk
      rcases hla mk hmk with h | h
      · exact Or.inl (List.mem_cons_of_mem _ h)
      · right
        have hmkid : mk ∈ st.reg.identities.map Prod.fst :=
          hmono mk (hr0sub (mk, true) hmk)
        have hne : mk ≠ fp := fun he => hfpid (he ▸ hmkid)
        show mk ∉ fp :: st.reg.identities.map Prod.snd
        intro hmem
        rcases List.mem_cons.mp hmem with h2 | h2
        · exact hne h2
        · exact h h2
  · have hune : u ≠ "" := by
      rw [hu] at hfal
      simp only [pyFalsy] at hfal
      intro he
      rw [he] at hfal
      simp at hfal
    have huLive : u ∈ st.reg.identities.map Prod.snd := hlive u hu hune
    rw [hstep]
    refine ⟨⟨hnd, ?_, ?_, ?_, ?_⟩, fun p hp => Or.inl hp⟩
    · intro p hp
      exact List.mem_cons_of_mem _ (hsub p hp)
    · intro k hk
      exact List.mem_cons_of_mem _ (hmono k hk)
    · intro u2 hu2 hne2
      have : u ∈ Prod.snd (fp, u) :: st.reg.identities.map Prod.snd :=
        List.mem_cons_self _ _
      have hu2u : u2 = u := by
        rw [hu] at hu2
        injection hu2 with h
        exact h.symm
      rw [hu2u]
      exact List.mem_cons_of_mem _ huLive
    · intro mk hmk
      rcases hla mk hmk with h | h
      · exact Or.inl h
      · right
        have hne : mk ≠ u := fun he => h (he ▸ huLive)
        show mk ∉ u :: st.reg.identities.map Prod.snd
        intro hmem
        rcases List.mem_cons.mp hmem with h2 | h2
        · exact hne h2
        · exact h h2
  · rw [hstep]
    refine ⟨⟨hnd, hsub, hmono, ?_, hla⟩, fun p hp => Or.inl hp⟩
    intro u2 hu2 _
    have : u2 = s := by injection hu2 with h; exact h.symm
    rw [this]
    exact owner_mem_snd hl
  · rw [hstep]
    exact ⟨⟨hnd, hsub, hmono, hlive, hla⟩, fun p hp => Or.inl hp⟩
  · have hsInSnd : s ∈ st.reg.identities.map Prod.snd := owner_mem_snd hl
    have htargetOK : ∀ mk, (mk, true) ∈ r0.individuals → s ≠ mk := by
      intro mk hmk he
      rcases hla mk hmk with h | h
      · have hlk : st.reg.individuals.lookup mk = some true :=
          lookup_of_mem_nodup _ _ _ h hnd
        have : individual_is_locked st.reg s = true := by
          unfold individual_is_locked
          rw [he, hlk]
          rfl
        rw [hlock] at this
        exact Bool.noConfusion this
      · exact h (he ▸ hsInSnd)
    rw [hstep]
    refine ⟨⟨?_, ?_, ?_, ?_, ?_⟩, ?_⟩
    · show ((st.reg.individuals.filter _).map Prod.fst).Nodup
      exact List.Nodup.sublist
        ((List.filter_sublist st.reg.individuals).map Prod.fst) hnd
    · intro p hp
      have hp2 : p ∈ st.reg.individuals := List.mem_of_mem_filter hp
      rw [merge_keys]
      exact hsub p hp2
    · intro k hk
      rw [merge_keys]
      exact hmono k hk
    · intro u2 hu2 _
      have hu2s : u2 = s := by injection hu2 with h; exact h.symm
      rw [hu2s, merge_identities, List.map_map]
      refine List.mem_map.mpr ⟨(fp, s), lookup_mem hl, ?_⟩
      have : ([u].contains s) = false := by
        simp only [List.contains_cons, List.contains_nil, Bool.or_false]
        exact beq_eq_false_iff_ne.mpr (Ne.symm hus)
      simp [Function.comp, this]
    · intro mk hmk
      rcases hla mk hmk with h | h
      · by_cases hmu : mk = u
        · right
          intro hmem
          rcases mem_snd_merge st.reg [u] s mk hmem with h2 | ⟨_, h3⟩
          · exact htargetOK mk hmk h2.symm
          · rw [hmu] at h3
            simp at h3
        · left
          refine List.mem_filter.mpr ⟨h, ?_⟩
          simp only [List.contains_cons, List.contains_nil, Bool.or_false]
          simp [beq_eq_false_iff_ne.mpr hmu]
      · right
        intro hmem
        rcases mem_snd_merge st.reg [u] s mk hmem with h2 | ⟨h3, _⟩
        · exact htargetOK mk hmk h2.symm
        · exact h h3
    · intro p hp
      rcases List.mem_append.mp hp with h | h
      · exact Or.inl h
      · right
        have hps : p = ([u], s) := by
          rcases List.mem_cons.mp h with h2 | h2
          · exact h2
          · exact absurd h2 (List.not_mem_nil p)
        intro mk hmk he
        rw [hps] at he
        exact htargetOK mk hmk he

/-- The lock-safety invariant over a whole candidate fold; every merge call
the fold emits has a target that is not locked in `r0`. -/
theorem lockinv_fold (r0 : Registry) (ids : List RawIdentity) : ∀ st : LoadState,
    (∀ p ∈ r0.individuals, p.1 ∈ r0.identities.map Prod.fst) →
    LockInv r0 st →
    LockInv r0 (ids.foldl load_identity_step st) ∧
    ∀ p ∈ (ids.foldl load_identity_step st).merges, p ∈ st.merges ∨
      ∀ mk, (mk, true) ∈ r0.individuals → p.2 ≠ mk := by
  induction ids with
  | nil => intro st _ hinv; exact ⟨hinv, fun p hp => Or.inl hp⟩
  | cons i ids ih =>
    intro st hr0sub hinv
    obtain ⟨hinv1, htr1⟩ := lockinv_step r0 st i hr0sub hinv
    obtain ⟨hinv2, htr2⟩ := ih (load_identity_step st i) hr0sub hinv1
    rw [List.foldl_cons]
    refine ⟨hinv2, fun p hp => ?_⟩
    rcases htr2 p hp with h | h
    · exact htr1 p h
    · exact Or.inr h

/-- The registry-level lock-safety invariant (between candidates). -/
def RegLockInv (r0 r : Registry) : Prop :=
  (r.individuals.map Prod.fst).Nodup ∧
  (∀ p ∈ r.individuals, p.1 ∈ r.identities.map Prod.fst) ∧
  (∀ k ∈ r0.identities.map Prod.fst, k ∈ r.identities.map Prod.fst) ∧
  (∀ mk, (mk, true) ∈ r0.individuals →
    ((mk, true) ∈ r.individuals ∨ mk ∉ r.identities.map Prod.snd))

theorem lockinv_of_regInv (r0 r : Registry) (h : RegLockInv r0 r) :
    LockInv r0 ⟨r, none, 0, []⟩ := by
  obtain ⟨a, b, c, d⟩ := h
  exact ⟨a, b, c, fun u hu => Option.noConfusion hu, d⟩

theorem regInv_of_lockinv (r0 : Registry) (st : LoadState) (h : LockInv r0 st) :
    RegLockInv r0 st.reg := by
  obtain ⟨a, b, c, _, d⟩ := h
  exact ⟨a, b, c, d⟩

/-- `RegLockInv` depends only on the individual and identity tables. -/
theorem regInv_of_eq (r0 r r2 : Registry) (h1 : r2.individuals = r.individuals)
    (h2 : r2.identities = r.identities) (h : RegLockInv r0 r) : RegLockInv r0 r2 := by
  unfold RegLockInv
  rw [h1, h2]
  exact h

/-- Lock safety over a whole batch: every merge call in the trace of `load`
has a target that is not locked in `r0`. No clean-run hypothesis is needed:
the property holds even when a `LoadError` aborts the batch. -/
theorem lockinv_load (r0 : Registry) (cands : List CandidateIndividual) : ∀ r : Registry,
    (∀ p ∈ r0.individuals, p.1 ∈ r0.identities.map Prod.fst) →
    RegLockInv r0 r →
    ∀ p ∈ (load r cands).merges, ∀ mk, (mk, true) ∈ r0.individuals → p.2 ≠ mk := by
  induction cands with
  | nil => intro r _ _ p hp; exact absurd hp (List.not_mem_nil p)
  | cons c rest ih =>
    intro r hr0sub hreg
    obtain ⟨hinv1, htr1⟩ := lockinv_fold r0 c.identities ⟨r, none, 0, []⟩ hr0sub
      (lockinv_of_regInv r0 r hreg)
    have hreg1 : RegLockInv r0 (load_identities r c.identities).reg :=
      regInv_of_lockinv r0 _ hinv1
    have htr1c : ∀ p ∈ (load_identities r c.identities).merges,
        ∀ mk, (mk, true) ∈ r0.individuals → p.2 ≠ mk := by
      intro p hp
      rcases htr1 p hp with h | h
      · exact absurd h (List.not_mem_nil p)
      · exact h
    cases hub : (if pyFalsy (load_identities r c.identities).uuid then none
                 else (load_identities r c.identities).uuid) with
    | none =>
      have heq := load_cons_none r c rest hub
      rw [heq]
      intro p hp mk hmk
      rcases List.mem_append.mp hp with h | h
      · exact htr1c p h mk hmk
      · exact ih (load_identities r c.identities).reg hr0sub hreg1 p h mk hmk
    | some u =>
      cases hle : load_enrollments (load_identities r c.identities).reg
          c.enrollments u with
      | mk r2 errE =>
        have hle_pre := load_enrollments_preserves c.enrollments
          (load_identities r c.identities).reg u
        rw [hle] at hle_pre
        obtain ⟨hle_ind, hle_id, _⟩ := hle_pre
        have hle_ind2 : r2.individuals =
            (load_identities r c.identities).reg.individuals := hle_ind
        have hle_id2 : r2.identities =
            (load_identities r c.identities).reg.identities := hle_id
        have hreg2 : RegLockInv r0 r2 := regInv_of_eq r0 _ r2 hle_ind2 hle_id2 hreg1
        cases errE with
        | none =>
          have heq := load_cons_some r c rest u r2 hub hle
          rw [heq]
          intro p hp mk hmk
          rcases List.mem_append.mp hp with h | h
          · exact htr1c p h mk hmk
          · exact ih r2 hr0sub hreg2 p h mk hmk
        | some m =>
          have heq := load_cons_some_err r c rest u m r2 hub hle
          rw [heq]
          intro p hp mk hmk
          exact htr1c p hp mk hmk

/-- C2 (amended): in a well-formed registry — unique individual keys, each
individual's canonical id present among the identity fingerprints — an
individual that is locked never appears as the target of any gateway merge
call issued by the engine: the lock check protects the merge target. (The
counterexample shows a locked individual can still appear among the merge
sources.) -/
theorem c2_locked_never_merge_target (cands : List CandidateIndividual) (r0 : Registry)
    (hnd : (r0.individuals.map Prod.fst).Nodup)
    (hsub : ∀ p ∈ r0.individuals, p.1 ∈ r0.identities.map Prod.fst)
    (mk : String) (hmk : (mk, true) ∈ r0.individuals) :
    ∀ p ∈ (load r0 cands).merges, p.2 ≠ mk := by
  intro p hp
  exact lockinv_load r0 cands r0 hsub
    ⟨hnd, hsub, fun k hk => hk, fun mk2 h => Or.inl h⟩ p hp mk hmk

/-- A fresh third identity colliding with nothing. -/
def wit_ic : RawIdentity := ⟨some "scm", some "c@example.com", none, none⟩

/-- Witness for C2 (amended): over `ce2_reg`, a candidate that creates a new
individual and then merges it into the unlocked pre-existing one issues
exactly one merge call, and its target is not the locked individual. -/
theorem c2_locked_never_merge_target_witness :
    ((ce2_reg.individuals.map Prod.fst).Nodup ∧
      (wit_fpa, true) ∈ ce2_reg.individuals ∧
      (load ce2_reg [⟨[wit_ic, wit_ib], []⟩]).merges ≠ []) ∧
    ∀ p ∈ (load ce2_reg [⟨[wit_ic, wit_ib], []⟩]).merges, p.2 ≠ wit_fpa :=
  ⟨⟨by decide, by decide, by decide⟩,
   c2_locked_never_merge_target [⟨[wit_ic, wit_ib], []⟩] ce2_reg
     (by decide) (by decide) wit_fpa (by decide)⟩
